import Mathlib

/-!
Verification development for the rabid concurrency runtime.

Shallow embedding of the core data structures and algorithms:
tagged pointers and the intrusive lock-free Exchange buffer
(include/intrusive.h), the mesh address arithmetic
(include/interconnect.h, Direct::buffer_for_edge), the expression
graph (detail::expression::Expression chain/complete, Continuation),
the worker event loop and send path, the idle Wait primitive, and the
reference counting layer (referenced::Object / referenced::Pointer).

Machine pointers are modelled as natural-number identifiers; a null
pointer is None.  Sequential atomicity: each atomic operation of the
source is one step of the model.
-/

namespace Rabid

/-- Pointwise update of a function out of Nat, standing for a store write. -/
def upd {α : Type} (f : Nat → α) (i : Nat) (v : α) : Nat → α :=
  fun j => if j = i then v else f j

theorem upd_same {α : Type} (f : Nat → α) (i : Nat) (v : α) : upd f i v i = v := by
  simp [upd]

theorem upd_other {α : Type} (f : Nat → α) (i j : Nat) (v : α) (h : j ≠ i) :
    upd f i v j = f j := by
  simp [upd, h]

/-! ### Tagged pointers and message tags

Mirrors TaggedPointer from include/intrusive.h specialised to the three
message tags of the executor (enum Tag { normal, reverse, delay }).  The
pointer part is an optional message identifier; tag of a null pointer
defaults to normal (tag value 0), as in LinkPointer{ nullptr }.
-/

/-- Task pointer tag from the executor: enum class Tag { normal, reverse, delay }. -/
inductive Tag where
  | normal
  | reverse
  | delay
deriving DecidableEq, Repr

/-- Tagged pointer: machine word holding a pointer and a small tag. -/
structure TPtr where
  ptr : Option Nat
  tag : Tag
deriving DecidableEq, Repr

/-- Null tagged pointer, tag value 0 (normal). -/
def TPtr.null : TPtr := ⟨none, Tag.normal⟩

/-! ### Intrusive Exchange buffer (include/intrusive.h)

State of one buffer: the atomic head plus the next field of every
message (intrusive::Link).  Exchange::clear is an atomic exchange of
the head; Exchange::insert is a CAS loop that writes
prepare(prior head) into the inserted tail and publishes the new head.
In the sequential model the CAS succeeds on first attempt.
-/

structure BufferState where
  head : TPtr
  nextOf : Nat → TPtr

/-- Freshly constructed Exchange: head{ LinkPointer{nullptr} }.  Link next
fields start indeterminate; the model initialises them null. -/
def Buffer.init : BufferState := ⟨TPtr.null, fun _ => TPtr.null⟩

/-- Exchange::clear( value ): head.exchange( value ); returns the prior head
(the drained list) and the updated buffer. -/
def Exchange.clear (s : BufferState) (value : TPtr) : TPtr × BufferState :=
  (s.head, { s with head := value })

/-- Exchange::insert( link, prepare ) with first = tail = link:
tail->next() = prepare( prior ); CAS head: prior -> link (tagged with the
tag the caller put on the link). -/
def Exchange.insert (s : BufferState) (link : Nat) (linkTag : Tag)
    (prepare : TPtr → TPtr) : BufferState :=
  let prior := s.head
  { head := ⟨some link, linkTag⟩, nextOf := upd s.nextOf link (prepare prior) }

/-- Walk the intrusive list from a tagged pointer following next fields,
with fuel bounding the traversal (the drained Batch as observed by the
consumer removing elements one at a time). -/
def chainList (nextOf : Nat → TPtr) : Nat → TPtr → List Nat
  | 0, _ => []
  | _ + 1, ⟨none, _⟩ => []
  | fuel + 1, ⟨some m, _⟩ => m :: chainList nextOf fuel (nextOf m)

/-- Fold a sequence of inserts with the identity prepare callback, all
links tagged normal (plain producer pushes). -/
def insertAll (s : BufferState) (ms : List Nat) : BufferState :=
  ms.foldl (fun acc m => Exchange.insert acc m Tag.normal id) s

/-- Writing the next field of a node not on a chain leaves the chain as is. -/
theorem chainList_upd (nextOf : Nat → TPtr) (m : Nat) (v : TPtr) :
    ∀ (fuel : Nat) (p : TPtr), m ∉ chainList nextOf fuel p →
      chainList (upd nextOf m v) fuel p = chainList nextOf fuel p := by
  intro fuel
  induction fuel with
  | zero => intro p _; rfl
  | succ n ih =>
    intro p hm
    match p with
    | ⟨none, t⟩ => rfl
    | ⟨some q, t⟩ =>
      have hqm : q ≠ m := by
        intro h; exact hm (by simp [chainList, h])
      have hm' : m ∉ chainList nextOf n (nextOf q) := by
        intro h; exact hm (by simp [chainList, h])
      simp [chainList, ih (nextOf q) hm', upd_other nextOf m q v hqm]

/-- Walking the buffer after a run of identity-prepare inserts yields the
inserted messages in LIFO order followed by the original chain. -/
theorem chainList_insertAll (s : BufferState) (ms : List Nat) (fuel : Nat)
    (hnd : ms.Nodup)
    (hdisj : ∀ m ∈ ms, m ∉ chainList s.nextOf fuel s.head) :
    chainList (insertAll s ms).nextOf (ms.length + fuel) (insertAll s ms).head =
      ms.reverse ++ chainList s.nextOf fuel s.head := by
  induction ms generalizing s fuel with
  | nil => simp [insertAll]
  | cons m ms ih =>
    have hstep : insertAll s (m :: ms)
        = insertAll (Exchange.insert s m Tag.normal id) ms := by
      simp [insertAll]
    have hndtail : ms.Nodup := hnd.of_cons
    have hmne : m ∉ ms := by
      intro h
      exact (List.nodup_cons.mp hnd).1 h
    have hchain1 :
        chainList (Exchange.insert s m Tag.normal id).nextOf (fuel + 1)
          (Exchange.insert s m Tag.normal id).head
          = m :: chainList s.nextOf fuel s.head := by
      have hmnot : m ∉ chainList s.nextOf fuel s.head := hdisj m (by simp)
      simp only [Exchange.insert, chainList, upd_same, id_eq]
      rw [chainList_upd s.nextOf m s.head fuel s.head hmnot]
    have hdisj' : ∀ x ∈ ms,
        x ∉ chainList (Exchange.insert s m Tag.normal id).nextOf (fuel + 1)
          (Exchange.insert s m Tag.normal id).head := by
      intro x hx
      rw [hchain1]
      intro hmem
      rcases List.mem_cons.mp hmem with h | h
      · exact hmne (h ▸ hx)
      · exact hdisj x (List.mem_cons_of_mem m hx) h
    have hlen : (m :: ms).length + fuel = ms.length + (fuel + 1) := by
      simp [List.length_cons]; omega
    rw [hstep, hlen, ih (Exchange.insert s m Tag.normal id) (fuel + 1) hndtail hdisj',
      hchain1]
    simp

/-- Walking from a null tagged pointer yields the empty list. -/
theorem chainList_null (nextOf : Nat → TPtr) (fuel : Nat) (t : Tag) :
    chainList nextOf fuel ⟨none, t⟩ = [] := by
  cases fuel <;> rfl

/-- C4: on an intrusive Exchange, inserting m1..mk with the identity
prepare callback and then draining with clear(value) returns the inserted
messages in LIFO order followed by the chain previously reachable from
the head, leaves the head equal to value, and an untouched buffer has a
null head and drains to the empty list. -/
theorem exchange_insert_clear_lifo (s0 : BufferState) (ms : List Nat)
    (value : TPtr) (fuel : Nat)
    (hnd : ms.Nodup)
    (hdisj : ∀ m ∈ ms, m ∉ chainList s0.nextOf fuel s0.head) :
    (Exchange.clear (insertAll s0 ms) value).2.head = value
    ∧ chainList (Exchange.clear (insertAll s0 ms) value).2.nextOf
        (ms.length + fuel) (Exchange.clear (insertAll s0 ms) value).1
      = ms.reverse ++ chainList s0.nextOf fuel s0.head
    ∧ (Exchange.clear Buffer.init value).1 = TPtr.null
    ∧ chainList Buffer.init.nextOf fuel (Exchange.clear Buffer.init value).1 = []
    ∧ Buffer.init.head = TPtr.null := by
  refine ⟨rfl, ?_, rfl, ?_, rfl⟩
  · have h := chainList_insertAll s0 ms fuel hnd hdisj
    simpa [Exchange.clear] using h
  · exact chainList_null _ fuel Tag.normal

/-- Witness for the LIFO drain theorem at a concrete buffer. -/
theorem exchange_insert_clear_lifo_witness :
    (Exchange.clear (insertAll Buffer.init [1, 2, 3]) ⟨some 7, Tag.reverse⟩).2.head
        = ⟨some 7, Tag.reverse⟩
    ∧ chainList (Exchange.clear (insertAll Buffer.init [1, 2, 3]) ⟨some 7, Tag.reverse⟩).2.nextOf
        (([1, 2, 3] : List Nat).length + 0)
        (Exchange.clear (insertAll Buffer.init [1, 2, 3]) ⟨some 7, Tag.reverse⟩).1
      = ([1, 2, 3] : List Nat).reverse ++ chainList Buffer.init.nextOf 0 Buffer.init.head
    ∧ (Exchange.clear Buffer.init ⟨some 7, Tag.reverse⟩).1 = TPtr.null
    ∧ chainList Buffer.init.nextOf 0 (Exchange.clear Buffer.init ⟨some 7, Tag.reverse⟩).1 = []
    ∧ Buffer.init.head = TPtr.null :=
  exchange_insert_clear_lifo Buffer.init [1, 2, 3] ⟨some 7, Tag.reverse⟩ 0
    (by decide) (by intro m _ h; simp [chainList] at h)

/-! ### The worker send path (part_000 Worker::send, part_001 PrepareMessage)

A sender wraps the task pointer with tag normal and inserts it with a
prepare callback that records the observed prior head, substituting a
null normal-tagged head when the prior carried tag reverse (consuming
the sleeping receiver sentinel).  On return the sender evaluates a
captured reverse sentinel exactly once (the sentinel evaluation invokes
the receiver idle interrupt) and releases it.
-/

/-- Prepare callback of the send path: on a reverse prior return a null
normal head, otherwise return the prior unchanged. -/
def prepareMessage (prior : TPtr) : TPtr :=
  if prior.tag = Tag.reverse then TPtr.null else prior

/-- Result of Worker::send: the updated buffer plus the sentinel the
sender captured, evaluated and released (none when no sentinel was
present). -/
structure SendResult where
  buf : BufferState
  woken : Option TPtr

/-- Worker::send( task ): insert (task, normal) with prepareMessage; if
the captured prior had tag reverse, evaluate it inline and release it. -/
def Worker.send (s : BufferState) (task : Nat) : SendResult :=
  let prior := s.head
  { buf := Exchange.insert s task Tag.normal prepareMessage
    woken := if prior.tag = Tag.reverse then some prior else none }

/-- C5: sending writes the task as the new normal-tagged head; when the
prior head carried tag reverse the task next link is the null normal
pointer (the sentinel is consumed) and the sender evaluates exactly that
captured sentinel; otherwise the prior head is written unchanged as the
task next link and no sentinel is evaluated. -/
theorem send_consumes_reverse_sentinel (s : BufferState) (task : Nat) :
    (Worker.send s task).buf.head = ⟨some task, Tag.normal⟩
    ∧ (s.head.tag = Tag.reverse →
        (Worker.send s task).buf.nextOf task = TPtr.null
        ∧ (Worker.send s task).woken = some s.head)
    ∧ (s.head.tag ≠ Tag.reverse →
        (Worker.send s task).buf.nextOf task = s.head
        ∧ (Worker.send s task).woken = none) := by
  refine ⟨rfl, ?_, ?_⟩
  · intro h
    constructor
    · simp [Worker.send, Exchange.insert, prepareMessage, upd_same, h]
    · simp [Worker.send, h]
  · intro h
    constructor
    · simp [Worker.send, Exchange.insert, prepareMessage, upd_same, h]
    · simp [Worker.send, h]

/-- Witness for the send theorem: a buffer whose head is a reverse
sentinel, and one whose head is a normal message. -/
theorem send_consumes_reverse_sentinel_witness :
    ((Worker.send ⟨⟨some 5, Tag.reverse⟩, fun _ => TPtr.null⟩ 9).buf.nextOf 9 = TPtr.null
      ∧ (Worker.send ⟨⟨some 5, Tag.reverse⟩, fun _ => TPtr.null⟩ 9).woken
          = some ⟨some 5, Tag.reverse⟩)
    ∧ ((Worker.send ⟨⟨some 5, Tag.normal⟩, fun _ => TPtr.null⟩ 9).buf.nextOf 9
          = ⟨some 5, Tag.normal⟩
      ∧ (Worker.send ⟨⟨some 5, Tag.normal⟩, fun _ => TPtr.null⟩ 9).woken = none) :=
  ⟨(send_consumes_reverse_sentinel ⟨⟨some 5, Tag.reverse⟩, fun _ => TPtr.null⟩ 9).2.1 rfl,
   (send_consumes_reverse_sentinel ⟨⟨some 5, Tag.normal⟩, fun _ => TPtr.null⟩ 9).2.2
     (by decide)⟩

/-- C6: round trip through the sentinel.  Starting from a drained buffer
(null normal head), posting a reverse sentinel w via clear and then
having a producer send message m with the sentinel-consuming prepare
leaves the buffer in exactly the state produced by sending m without the
sentinel ever posted, and hands the sentinel back to the producer. -/
theorem sentinel_round_trip (s : BufferState) (w m : Nat)
    (hempty : s.head = TPtr.null) :
    (Worker.send (Exchange.clear s ⟨some w, Tag.reverse⟩).2 m).buf.head
        = (Worker.send s m).buf.head
    ∧ (∀ x, (Worker.send (Exchange.clear s ⟨some w, Tag.reverse⟩).2 m).buf.nextOf x
        = (Worker.send s m).buf.nextOf x)
    ∧ (Worker.send (Exchange.clear s ⟨some w, Tag.reverse⟩).2 m).woken
        = some ⟨some w, Tag.reverse⟩ := by
  refine ⟨rfl, ?_, by simp [Worker.send, Exchange.clear]⟩
  intro x
  by_cases hx : x = m
  · subst hx
    simp [Worker.send, Exchange.clear, Exchange.insert, prepareMessage, upd_same, hempty,
      TPtr.null]
  · simp [Worker.send, Exchange.clear, Exchange.insert, prepareMessage,
      upd_other _ _ _ _ hx]

/-- Witness for the sentinel round trip at a concrete drained buffer. -/
theorem sentinel_round_trip_witness :
    (Worker.send (Exchange.clear Buffer.init ⟨some 4, Tag.reverse⟩).2 2).buf.head
        = (Worker.send Buffer.init 2).buf.head
    ∧ (∀ x, (Worker.send (Exchange.clear Buffer.init ⟨some 4, Tag.reverse⟩).2 2).buf.nextOf x
        = (Worker.send Buffer.init 2).buf.nextOf x)
    ∧ (Worker.send (Exchange.clear Buffer.init ⟨some 4, Tag.reverse⟩).2 2).woken
        = some ⟨some 4, Tag.reverse⟩ :=
  sentinel_round_trip Buffer.init 4 2 rfl

/-! ### Mesh address arithmetic (include/interconnect.h, Direct)

Direct allocates (count - 1) * count + count = N * N buffers.  Edge
(src, dst) with src != dst is mapped through the closed-form pair index;
the loopback (i, i) lives after all pairs at N * (N - 1) + i.  The C++
arithmetic is size_t, i.e. mod 2^64; the intermediate expression
low * N - ((low + 3) * low) / 2 - 1 + high wraps through the subtraction
when low = 0 and rewraps on the final addition, so its value equals the
ideal integer value of the same expression whenever that value lands in
[0, 2^64).  The model therefore computes in Int.
-/

/-- Pair index: pair = low * N - ((low + 3) * low) / 2 - 1 + high. -/
def pairIndex (N low high : Nat) : ℤ :=
  (low : ℤ) * N - (((low : ℤ) + 3) * low) / 2 - 1 + high

/-- Direct::buffer_for_edge: loopbacks are placed after the buffer pairs
at base nodes.capacity() * (nodes.capacity() - 1); pairs are addressed
by the closed-form row arithmetic with offset (src > dst). -/
def buffer_for_edge (N src dst : Nat) : ℤ :=
  if src = dst then ((N : ℤ) - 1) * N + src
  else pairIndex N (min src dst) (max src dst) * 2 + (if dst < src then 1 else 0)

/-- Connection built at node i towards index j: outbound buffer
buffer_for_edge(i, j), inbound buffer buffer_for_edge(j, i). -/
def connection (N i j : Nat) : ℤ × ℤ :=
  (buffer_for_edge N i j, buffer_for_edge N j i)

/-- Second draft of Direct::buffer_for_edge kept in the same header (the
abandoned copy): identical pair arithmetic but loopback base
(nodes.capacity() - 2) * (nodes.capacity() - 1). -/
def buffer_for_edge_draft2 (N src dst : Nat) : ℤ :=
  if src = dst then ((N : ℤ) - 2) * ((N : ℤ) - 1) + src
  else pairIndex N (min src dst) (max src dst) * 2 + (if dst < src then 1 else 0)

/-- The draft-2 loopback base collides with the pair region, against its
own comment placing loopbacks after the buffer pairs: at N = 3 the
loopback of node 0 and the edge (0, 2) share buffer index 2. -/
theorem buffer_for_edge_draft2_collision :
    buffer_for_edge_draft2 3 0 0 = buffer_for_edge_draft2 3 0 2
    ∧ buffer_for_edge_draft2 3 0 0 = 2 := by
  constructor <;> decide

/-- Doubled pair index, clearing the exact division by two. -/
theorem two_mul_pairIndex (N l h : Nat) :
    pairIndex N l h * 2
      = 2 * l * N - (l : ℤ) * l - 3 * l - 2 + 2 * h := by
  unfold pairIndex
  have hsplit : ((l : ℤ) + 3) * l = (l : ℤ) * ((l : ℤ) + 1) + 2 * l := by ring
  have hdvd : (2 : ℤ) ∣ ((l : ℤ) + 3) * l := by
    rw [hsplit]
    exact dvd_add (Int.even_mul_succ_self (l : ℤ)).two_dvd ⟨l, rfl⟩
  have hcancel : (((l : ℤ) + 3) * l) / 2 * 2 = ((l : ℤ) + 3) * l :=
    Int.ediv_mul_cancel hdvd
  have hexp : ((l : ℤ) + 3) * l = (l : ℤ) * l + 3 * l := by ring
  nlinarith [hcancel, hexp]

/-- Strict growth of the doubled pair value across rows. -/
theorem doubled_pair_lt {n a b c d : ℤ} (ha : 0 ≤ a) (hab : a < b)
    (hb : b ≤ n - 1) (hcd : c < d) (hd : d ≤ n - 1) (hac : a < c) :
    2 * a * n - a * a - 3 * a - 2 + 2 * b
      < 2 * c * n - c * c - 3 * c - 2 + 2 * d := by
  have h1 : (0 : ℤ) ≤ c - a - 1 := by linarith
  have h2 : (0 : ℤ) ≤ 2 * n - a - c - 3 := by linarith
  nlinarith [mul_nonneg h1 h2]

/-- The doubled pair value determines the (low, high) pair. -/
theorem doubled_pair_inj {n a b c d : ℤ} (ha : 0 ≤ a) (hab : a < b)
    (hb : b ≤ n - 1) (hc : 0 ≤ c) (hcd : c < d) (hd : d ≤ n - 1)
    (heq : 2 * a * n - a * a - 3 * a - 2 + 2 * b
        = 2 * c * n - c * c - 3 * c - 2 + 2 * d) :
    a = c ∧ b = d := by
  rcases lt_trichotomy a c with h | h | h
  · exact absurd heq (ne_of_lt (doubled_pair_lt ha hab hb hcd hd h))
  · refine ⟨h, ?_⟩
    subst h
    linarith
  · exact absurd heq.symm (ne_of_lt (doubled_pair_lt hc hcd hd hab hb h))

/-- Lower bound of the doubled pair value. -/
theorem doubled_pair_nonneg {n a b : ℤ} (ha : 0 ≤ a) (hab : a < b)
    (hb : b ≤ n - 1) :
    0 ≤ 2 * a * n - a * a - 3 * a - 2 + 2 * b := by
  have h1 : (0 : ℤ) ≤ 2 * n - a - 1 := by linarith
  nlinarith [mul_nonneg ha h1]

/-- Upper bound of the doubled pair value. -/
theorem doubled_pair_le {n a b : ℤ} (ha : 0 ≤ a) (hab : a < b)
    (hb : b ≤ n - 1) :
    2 * a * n - a * a - 3 * a - 2 + 2 * b ≤ n * n - n - 2 := by
  have h1 : (0 : ℤ) ≤ n - a - 1 := by linarith
  have h2 : (0 : ℤ) ≤ n - a - 2 := by linarith
  nlinarith [mul_nonneg h1 h2]

/-- Bounds of the off-diagonal buffer index: it stays strictly below the
loopback region which starts at N * (N - 1). -/
theorem buffer_for_edge_offdiag_bounds (N src dst : Nat) (hne : src ≠ dst)
    (hs : src < N) (hd : dst < N) :
    0 ≤ buffer_for_edge N src dst
      ∧ buffer_for_edge N src dst ≤ (N : ℤ) * N - N - 1 := by
  have hq := two_mul_pairIndex N (min src dst) (max src dst)
  have hlm : min src dst < max src dst := min_lt_max.mpr hne
  have hmN : max src dst < N := max_lt hs hd
  have ca : (0 : ℤ) ≤ ((min src dst : Nat) : ℤ) := Int.ofNat_nonneg _
  have cb : ((min src dst : Nat) : ℤ) < ((max src dst : Nat) : ℤ) := by
    exact_mod_cast hlm
  have cc : ((max src dst : Nat) : ℤ) ≤ (N : ℤ) - 1 := by omega
  have hlow := doubled_pair_nonneg ca cb cc
  have hhigh := doubled_pair_le ca cb cc
  unfold buffer_for_edge
  rw [if_neg hne]
  constructor
  · by_cases ho : dst < src <;> simp only [ho, if_pos, if_neg, ite_true, ite_false] <;>
      omega
  · by_cases ho : dst < src <;> simp only [ho, if_pos, if_neg, ite_true, ite_false] <;>
      nlinarith [hq, hhigh]

/-- Off-diagonal injectivity: the pair arithmetic plus the (src > dst)
offset determines the ordered edge. -/
theorem buffer_for_edge_offdiag_inj (N s1 d1 s2 d2 : Nat)
    (hne1 : s1 ≠ d1) (hne2 : s2 ≠ d2)
    (h1 : s1 < N) (h2 : d1 < N) (h3 : s2 < N) (h4 : d2 < N)
    (heq : buffer_for_edge N s1 d1 = buffer_for_edge N s2 d2) :
    s1 = s2 ∧ d1 = d2 := by
  unfold buffer_for_edge at heq
  rw [if_neg hne1, if_neg hne2] at heq
  have hq1 := two_mul_pairIndex N (min s1 d1) (max s1 d1)
  have hq2 := two_mul_pairIndex N (min s2 d2) (max s2 d2)
  have hlm1 : min s1 d1 < max s1 d1 := min_lt_max.mpr hne1
  have hlm2 : min s2 d2 < max s2 d2 := min_lt_max.mpr hne2
  have hm1 : max s1 d1 < N := max_lt h1 h2
  have hm2 : max s2 d2 < N := max_lt h3 h4
  have ca1 : (0 : ℤ) ≤ ((min s1 d1 : Nat) : ℤ) := Int.ofNat_nonneg _
  have cb1 : ((min s1 d1 : Nat) : ℤ) < ((max s1 d1 : Nat) : ℤ) := by
    exact_mod_cast hlm1
  have cc1 : ((max s1 d1 : Nat) : ℤ) ≤ (N : ℤ) - 1 := by omega
  have ca2 : (0 : ℤ) ≤ ((min s2 d2 : Nat) : ℤ) := Int.ofNat_nonneg _
  have cb2 : ((min s2 d2 : Nat) : ℤ) < ((max s2 d2 : Nat) : ℤ) := by
    exact_mod_cast hlm2
  have cc2 : ((max s2 d2 : Nat) : ℤ) ≤ (N : ℤ) - 1 := by omega
  have pairs_eq : pairIndex N (min s1 d1) (max s1 d1)
        = pairIndex N (min s2 d2) (max s2 d2)
      → min s1 d1 = min s2 d2 ∧ max s1 d1 = max s2 d2 := by
    intro hp
    have hqq : pairIndex N (min s1 d1) (max s1 d1) * 2
        = pairIndex N (min s2 d2) (max s2 d2) * 2 := by rw [hp]
    rw [hq1, hq2] at hqq
    obtain ⟨hl, hh⟩ := doubled_pair_inj ca1 cb1 cc1 ca2 cb2 cc2 hqq
    exact ⟨by exact_mod_cast hl, by exact_mod_cast hh⟩
  by_cases o1 : d1 < s1 <;> by_cases o2 : d2 < s2 <;>
    simp only [o1, o2, if_pos, if_neg, ite_true, ite_false] at heq
  · obtain ⟨hl, hh⟩ := pairs_eq (by linarith)
    rw [min_eq_right (Nat.le_of_lt o1), min_eq_right (Nat.le_of_lt o2)] at hl
    rw [max_eq_left (Nat.le_of_lt o1), max_eq_left (Nat.le_of_lt o2)] at hh
    exact ⟨hh, hl⟩
  · exact absurd heq (by omega)
  · exact absurd heq (by omega)
  · have hlt1 : s1 < d1 := lt_of_le_of_ne (not_lt.mp o1) hne1
    have hlt2 : s2 < d2 := lt_of_le_of_ne (not_lt.mp o2) hne2
    obtain ⟨hl, hh⟩ := pairs_eq (by linarith)
    rw [min_eq_left (Nat.le_of_lt hlt1), min_eq_left (Nat.le_of_lt hlt2)] at hl
    rw [max_eq_right (Nat.le_of_lt hlt1), max_eq_right (Nat.le_of_lt hlt2)] at hh
    exact ⟨hl, hh⟩

/-- C3: for every worker count N >= 2, the mesh maps every ordered edge
(src, dst) with src != dst to index pair * 2 + (src > dst) with
pair = low * N - ((low + 3) * low) / 2 - 1 + high, maps every loopback
(i, i) to (N - 1) * N + i, all N * N indices are distinct and lie inside
the N * N allocation, and the connection built at src towards dst uses
the same two buffers as the connection built at dst towards src with the
outbound and inbound roles swapped. -/
theorem mesh_buffer_indices (N : Nat) (hN : 2 ≤ N) :
    (∀ src dst, src < N → dst < N →
        0 ≤ buffer_for_edge N src dst ∧ buffer_for_edge N src dst < (N : ℤ) * N)
    ∧ (∀ s1 d1 s2 d2, s1 < N → d1 < N → s2 < N → d2 < N →
        buffer_for_edge N s1 d1 = buffer_for_edge N s2 d2 → s1 = s2 ∧ d1 = d2)
    ∧ (∀ src dst, src ≠ dst →
        buffer_for_edge N src dst
          = pairIndex N (min src dst) (max src dst) * 2
            + (if dst < src then 1 else 0))
    ∧ (∀ i, buffer_for_edge N i i = ((N : ℤ) - 1) * N + i)
    ∧ (∀ s d, (connection N s d).1 = (connection N d s).2
        ∧ (connection N s d).2 = (connection N d s).1) := by
  refine ⟨?_, ?_, ?_, ?_, ?_⟩
  · intro src dst hs hd
    by_cases hne : src = dst
    · subst hne
      unfold buffer_for_edge
      rw [if_pos rfl]
      constructor
      · have : (0 : ℤ) ≤ (src : ℤ) := Int.ofNat_nonneg _
        nlinarith [Int.ofNat_nonneg N, (by exact_mod_cast hN : (2 : ℤ) ≤ N)]
      · have hcast : (src : ℤ) < N := by exact_mod_cast hs
        nlinarith
    · obtain ⟨hlow, hhigh⟩ := buffer_for_edge_offdiag_bounds N src dst hne hs hd
      have hNc : (2 : ℤ) ≤ N := by exact_mod_cast hN
      exact ⟨hlow, by nlinarith⟩
  · intro s1 d1 s2 d2 h1 h2 h3 h4 heq
    by_cases e1 : s1 = d1 <;> by_cases e2 : s2 = d2
    · subst e1; subst e2
      unfold buffer_for_edge at heq
      rw [if_pos rfl, if_pos rfl] at heq
      have : (s1 : ℤ) = s2 := by linarith
      have hfin : s1 = s2 := by exact_mod_cast this
      exact ⟨hfin, hfin⟩
    · exfalso
      obtain ⟨hlow, hhigh⟩ := buffer_for_edge_offdiag_bounds N s2 d2 e2 h3 h4
      unfold buffer_for_edge at heq hhigh
      rw [if_pos e1, if_neg e2] at heq
      rw [if_neg e2] at hhigh
      have hcast : (0 : ℤ) ≤ (s1 : ℤ) := Int.ofNat_nonneg _
      nlinarith
    · exfalso
      obtain ⟨hlow, hhigh⟩ := buffer_for_edge_offdiag_bounds N s1 d1 e1 h1 h2
      unfold buffer_for_edge at heq hhigh
      rw [if_neg e1, if_pos e2] at heq
      rw [if_neg e1] at hhigh
      have hcast : (0 : ℤ) ≤ (s2 : ℤ) := Int.ofNat_nonneg _
      nlinarith
    · exact buffer_for_edge_offdiag_inj N s1 d1 s2 d2 e1 e2 h1 h2 h3 h4 heq
  · intro src dst hne
    unfold buffer_for_edge
    rw [if_neg hne]
  · intro i
    unfold buffer_for_edge
    rw [if_pos rfl]
  · intro s d
    exact ⟨rfl, rfl⟩

/-- Witness for the mesh index theorem at N = 4. -/
theorem mesh_buffer_indices_witness :
    (2 ≤ 4)
    ∧ (∀ i, buffer_for_edge 4 i i = ((4 : ℤ) - 1) * 4 + i) :=
  ⟨by decide, (mesh_buffer_indices 4 (by decide)).2.2.2.1⟩

/-! ### Expression graph (part_004 detail::expression::Expression)

A task (Expression) has an atomic pending head of its successor list
and a dual-use var pointer (the variable member of the source; variable
is a reserved word here).  pending is null, a chain of successors
linked through their var fields, or the own address of the task (the
sentinel, meaning the result is produced).  chain appends a successor
or dispatches it immediately when the sentinel is observed; complete
exchanges pending to the sentinel and dispatches every captured waiting
task after pointing its var at this task.  Dispatch is the executor
TaskDispatch here: the dispatched task is recorded as an event together
with the var value it carries at that moment.
-/

structure QTask where
  pending : Option Nat
  var : Option Nat

structure QState where
  tasks : Nat → QTask
  dispatched : List (Nat × Option Nat)

/-- Expression::chain: load prior; on the sentinel set succ.var to this
and dispatch succ; otherwise usurp prior into succ.var and CAS pending
from prior to succ (the CAS of the sequential model succeeds). -/
def Expression.chain (s : QState) (this succ : Nat) : QState :=
  let prior := (s.tasks this).pending
  if prior = some this then
    { tasks := upd s.tasks succ { s.tasks succ with var := some this }
      dispatched := s.dispatched ++ [(succ, some this)] }
  else
    let t1 := upd s.tasks succ { s.tasks succ with var := prior }
    { s with tasks := upd t1 this { t1 this with pending := some succ } }

/-- Walk of Expression::complete: while waiting, capture next from the
waiting task var field, point its var at this task, dispatch it, and
continue with next. -/
def Expression.walk (this : Nat) : Nat → QState → Option Nat → QState
  | _, s, none => s
  | 0, s, some _ => s
  | fuel + 1, s, some w =>
      let next := (s.tasks w).var
      Expression.walk this fuel
        { tasks := upd s.tasks w { s.tasks w with var := some this }
          dispatched := s.dispatched ++ [(w, some this)] } next

/-- Expression::complete: clear var, exchange pending to the sentinel
(the own address) capturing the waiting chain, then walk it. -/
def Expression.complete (s : QState) (this : Nat) (fuel : Nat) : QState :=
  let waiting := (s.tasks this).pending
  let tasks1 := upd s.tasks this { s.tasks this with pending := some this, var := none }
  Expression.walk this fuel { s with tasks := tasks1 } waiting

/-- A chain or complete operation on the expression graph. -/
inductive EOp where
  | chain (this succ : Nat)
  | complete (this : Nat)

def applyEOp (fuel : Nat) (s : QState) : EOp → QState
  | .chain t u => Expression.chain s t u
  | .complete t => Expression.complete s t fuel

def runEOps (fuel : Nat) (s : QState) : List EOp → QState
  | [] => s
  | op :: ops => runEOps fuel (applyEOp fuel s op) ops

/-- Updating only the var field of any task leaves every pending field
unchanged. -/
theorem upd_var_pending (tasks : Nat → QTask) (w : Nat) (v : Option Nat) (t : Nat) :
    ((upd tasks w { tasks w with var := v }) t).pending = (tasks t).pending := by
  by_cases h : t = w
  · subst h; rw [upd_same]
  · rw [upd_other _ _ _ _ h]

/-- The complete walk never writes a pending field. -/
theorem walk_pending (this t : Nat) :
    ∀ (fuel : Nat) (s : QState) (p : Option Nat),
      ((Expression.walk this fuel s p).tasks t).pending = (s.tasks t).pending := by
  intro fuel
  induction fuel with
  | zero =>
    intro s p
    cases p <;> rfl
  | succ n ih =>
    intro s p
    cases p with
    | none => rfl
    | some w =>
      rw [Expression.walk, ih]
      exact upd_var_pending s.tasks w (some this) t

/-- One operation preserves a pending field already at the sentinel. -/
theorem applyEOp_pending_self (fuel : Nat) (s : QState) (op : EOp) (t : Nat)
    (h : (s.tasks t).pending = some t) :
    (((applyEOp fuel s op).tasks t).pending) = some t := by
  cases op with
  | chain a b =>
    by_cases hc : (s.tasks a).pending = some a
    · simp only [applyEOp, Expression.chain, if_pos hc]
      rw [upd_var_pending]
      exact h
    · simp only [applyEOp, Expression.chain, if_neg hc]
      have hta : t ≠ a := by
        intro he
        exact hc (he ▸ h)
      rw [upd_other _ _ _ _ hta, upd_var_pending]
      exact h
  | complete a =>
    simp only [applyEOp, Expression.complete]
    rw [walk_pending]
    dsimp only
    by_cases hta : t = a
    · subst hta; rw [upd_same]
    · rw [upd_other _ _ _ _ hta]
      exact h

/-- C1: across every sequence of chain and complete operations, once the
pending field of a task holds its own address (the sentinel), it holds
it forever; the transition to the sentinel is never undone. -/
theorem pending_monotone_to_self (fuel : Nat) (ops : List EOp) (s : QState) (t : Nat)
    (hself : (s.tasks t).pending = some t) :
    ((runEOps fuel s ops).tasks t).pending = some t := by
  induction ops generalizing s with
  | nil => exact hself
  | cons op ops ih =>
    exact ih (applyEOp fuel s op) (applyEOp_pending_self fuel s op t hself)

/-- Witness for pending monotonicity at a concrete completed task. -/
theorem pending_monotone_to_self_witness :
    ((QState.mk (fun _ => ⟨some 0, none⟩) []).tasks 0).pending = some 0
    ∧ ((runEOps 5 (QState.mk (fun _ => ⟨some 0, none⟩) [])
        [EOp.chain 0 1, EOp.complete 0, EOp.chain 0 2]).tasks 0).pending = some 0 :=
  ⟨rfl, pending_monotone_to_self 5 [EOp.chain 0 1, EOp.complete 0, EOp.chain 0 2]
    (QState.mk (fun _ => ⟨some 0, none⟩) []) 0 rfl⟩

/-- The waiting chain: successor tasks linked through their var fields,
starting at a pending head. -/
inductive VarChain (tasks : Nat → QTask) : Option Nat → List Nat → Prop where
  | nil : VarChain tasks none []
  | cons (w : Nat) {rest : List Nat} :
      VarChain tasks ((tasks w).var) rest → VarChain tasks (some w) (w :: rest)

/-- A waiting chain is unaffected by updating a task outside of it. -/
theorem VarChain.upd_not_mem {tasks : Nat → QTask} {p : Option Nat} {ws : List Nat}
    (h : VarChain tasks p ws) (w : Nat) (v : QTask) (hw : w ∉ ws) :
    VarChain (upd tasks w v) p ws := by
  induction h with
  | nil => exact .nil
  | @cons u rest hrest ih =>
    have hu : u ≠ w := by
      intro he
      exact hw (he ▸ List.mem_cons_self u rest)
    have hw' : w ∉ rest := fun hmem => hw (List.mem_cons_of_mem u hmem)
    have := ih hw'
    refine VarChain.cons u ?_
    rw [upd_other _ _ _ _ hu]
    exact this

/-- Behaviour of the complete walk over a well-formed waiting chain: it
dispatches exactly the chain members in order, each carrying var = this,
and touches no task outside the chain. -/
theorem walk_spec (this : Nat) (ws : List Nat) :
    ∀ (fuel : Nat) (s : QState) (p : Option Nat),
      VarChain s.tasks p ws → ws.Nodup → ws.length ≤ fuel →
      (Expression.walk this fuel s p).dispatched
          = s.dispatched ++ ws.map (fun w => (w, some this))
      ∧ (∀ x, x ∉ ws → (Expression.walk this fuel s p).tasks x = s.tasks x) := by
  induction ws with
  | nil =>
    intro fuel s p hvc _ _
    cases hvc
    constructor
    · cases fuel <;> simp [Expression.walk]
    · intro x _
      cases fuel <;> rfl
  | cons w rest ih =>
    intro fuel s p hvc hnd hfuel
    cases hvc with
    | cons _ hrest =>
      obtain ⟨f, rfl⟩ : ∃ f, fuel = f + 1 := ⟨fuel - 1, by simp at hfuel; omega⟩
      have hwrest : w ∉ rest := (List.nodup_cons.mp hnd).1
      have hndrest : rest.Nodup := (List.nodup_cons.mp hnd).2
      have hfr : rest.length ≤ f := by simp at hfuel; omega
      set s' : QState :=
        { tasks := upd s.tasks w { s.tasks w with var := some this }
          dispatched := s.dispatched ++ [(w, some this)] } with hs'
      have hvc' : VarChain s'.tasks ((s.tasks w).var) rest :=
        VarChain.upd_not_mem hrest w _ hwrest
      have hstep : Expression.walk this (f + 1) s (some w)
          = Expression.walk this f s' ((s.tasks w).var) := rfl
      obtain ⟨hd, ht⟩ := ih f s' ((s.tasks w).var) hvc' hndrest hfr
      constructor
      · rw [hstep, hd, hs']
        simp
      · intro x hx
        have hxw : x ≠ w := by
          intro he
          exact hx (he ▸ List.mem_cons_self w rest)
        have hxrest : x ∉ rest := fun hmem => hx (List.mem_cons_of_mem w hmem)
        rw [hstep, ht x hxrest, hs']
        exact upd_other _ _ _ _ hxw

/-- C2: whether a successor S is chained before or after the completion
of task T, S is dispatched exactly once with var = T recorded at the
dispatch, and complete dispatches every already waiting task exactly
once with var = T: the full dispatch trace is the captured chain (with S
at its head when chained first) respectively the chain followed by the
immediate dispatch of S when chained after completion. -/
theorem chain_complete_dispatch_exactly_once (s : QState) (T S : Nat) (ws : List Nat)
    (fuel : Nat) (hST : S ≠ T)
    (hpend : (s.tasks T).pending ≠ some T)
    (hchain : VarChain s.tasks ((s.tasks T).pending) ws)
    (hnd : ws.Nodup) (hS : S ∉ ws) (hT : T ∉ ws)
    (hfuel : ws.length + 1 ≤ fuel) :
    (runEOps fuel s [EOp.chain T S, EOp.complete T]).dispatched
        = s.dispatched ++ (S :: ws).map (fun w => (w, some T))
    ∧ (runEOps fuel s [EOp.complete T, EOp.chain T S]).dispatched
        = s.dispatched ++ ws.map (fun w => (w, some T)) ++ [(S, some T)] := by
  have hTS : T ≠ S := fun he => hST he.symm
  constructor
  · -- chain first, then complete
    show (Expression.complete (Expression.chain s T S) T fuel).dispatched = _
    have hcht : (Expression.chain s T S).tasks
        = upd (upd s.tasks S { s.tasks S with var := (s.tasks T).pending }) T
            { s.tasks T with pending := some S } := by
      simp only [Expression.chain, if_neg hpend]
      rw [upd_other s.tasks S T _ hTS]
    have hchd : (Expression.chain s T S).dispatched = s.dispatched := by
      simp only [Expression.chain, if_neg hpend]
    have hpT : ((Expression.chain s T S).tasks T).pending = some S := by
      rw [hcht, upd_same]
    set s2 : QState :=
      { tasks := upd (Expression.chain s T S).tasks T
          { (Expression.chain s T S).tasks T with pending := some T, var := none }
        dispatched := (Expression.chain s T S).dispatched } with hs2
    have hcomp : Expression.complete (Expression.chain s T S) T fuel
        = Expression.walk T fuel s2 (some S) := by
      rw [Expression.complete, hpT, hs2]
    have hvarS : (s2.tasks S).var = (s.tasks T).pending := by
      rw [hs2]
      dsimp only
      rw [upd_other _ _ _ _ hST, hcht, upd_other _ _ _ _ hST, upd_same]
    have hvc2 : VarChain s2.tasks (some S) (S :: ws) := by
      refine VarChain.cons S ?_
      rw [hvarS]
      have h1 : VarChain (upd s.tasks S { s.tasks S with var := (s.tasks T).pending })
          ((s.tasks T).pending) ws := VarChain.upd_not_mem hchain S _ hS
      have h2 : VarChain (Expression.chain s T S).tasks ((s.tasks T).pending) ws := by
        rw [hcht]
        exact VarChain.upd_not_mem h1 T _ hT
      exact VarChain.upd_not_mem h2 T _ hT
    obtain ⟨hd, _⟩ := walk_spec T (S :: ws) fuel s2 (some S) hvc2
      (List.nodup_cons.mpr ⟨hS, hnd⟩) (by simpa using hfuel)
    rw [hcomp, hd, hs2]
    simp [hchd]
  · -- complete first, then chain
    show (Expression.chain (Expression.complete s T fuel) T S).dispatched = _
    set s1 : QState :=
      { s with tasks := upd s.tasks T { s.tasks T with pending := some T, var := none } }
      with hs1
    have hcomp : Expression.complete s T fuel
        = Expression.walk T fuel s1 ((s.tasks T).pending) := rfl
    have hvc1 : VarChain s1.tasks ((s.tasks T).pending) ws :=
      VarChain.upd_not_mem hchain T _ hT
    obtain ⟨hd, ht⟩ := walk_spec T ws fuel s1 ((s.tasks T).pending) hvc1 hnd
      (by omega)
    have hpT : ((Expression.complete s T fuel).tasks T).pending = some T := by
      rw [hcomp, ht T hT, hs1]
      dsimp only
      rw [upd_same]
    rw [Expression.chain, if_pos hpT, hcomp, hd, hs1]

/-- Concrete initial state for the dispatch witness: task 0 has the
single waiting successor 2; tasks 1 and 2 are fresh. -/
def qtasks0 : Nat → QTask := fun n =>
  if n = 0 then ⟨some 2, none⟩ else ⟨none, none⟩

/-- Witness for the dispatch theorem: T = 0, S = 1, waiting chain [2]. -/
theorem chain_complete_dispatch_exactly_once_witness :
    (runEOps 2 (QState.mk qtasks0 []) [EOp.chain 0 1, EOp.complete 0]).dispatched
        = [] ++ ([1, 2] : List Nat).map (fun w => (w, some 0))
    ∧ (runEOps 2 (QState.mk qtasks0 []) [EOp.complete 0, EOp.chain 0 1]).dispatched
        = [] ++ ([2] : List Nat).map (fun w => (w, some 0)) ++ [(1, some 0)] := by
  have hch : VarChain qtasks0 ((qtasks0 0).pending) [2] := by
    have h2 : (qtasks0 2).var = none := rfl
    have h0 : (qtasks0 0).pending = some 2 := rfl
    rw [h0]
    exact VarChain.cons 2 (h2 ▸ VarChain.nil)
  exact chain_complete_dispatch_exactly_once (QState.mk qtasks0 []) 0 1 [2] 2
    (by decide) (by decide) hch (by decide) (by decide) (by decide) (by decide)

/-! ### Continuations under ImmediateDispatch (part_004, capture.h)

For the standalone Future/Promise usage dispatch invokes evaluate
synchronously.  A task is either an Argument (a promise: evaluate just
completes) or a Continuation over a function f (evaluate applies f to
the container value of the task its var points at, stores the result in
the own container, then completes).  Values are Nat; reading an
unconstructed container defaults to 0 (indeterminate in the source).
The evals field counts entries of evaluate.  The walk of complete is
inlined into the mutual recursion so that the fuel strictly decreases
on every call.
-/

inductive IKind where
  | argument
  | cont (f : Nat → Nat)

structure ITask where
  pending : Option Nat
  var : Option Nat
  container : Option Nat
  kind : IKind
  evals : Nat

abbrev IState := Nat → ITask

/-- Value of variable->container, the argument read by apply. -/
def argValue (s : IState) (t : Nat) : Nat :=
  match (s t).var with
  | none => 0
  | some p => ((s p).container).getD 0

/-- State after the exchange of complete: the own pending becomes the
sentinel and var is cleared. -/
def completeExchange (s : IState) (t : Nat) : IState :=
  upd s t { s t with pending := some t, var := none }

mutual

/-- Expression::evaluate under ImmediateDispatch, fuel bounded.
Argument: complete.  Continuation: apply the function to the argument
container, store into the own container, complete. -/
def evaluateI : Nat → IState → Nat → IState
  | 0, s, _ => s
  | fuel + 1, s, t =>
    match (s t).kind with
    | .argument =>
        let s1 := upd s t { s t with evals := (s t).evals + 1 }
        walkI fuel (completeExchange s1 t) t ((s1 t).pending)
    | .cont f =>
        let s1 := upd s t { s t with evals := (s t).evals + 1 }
        let s2 := upd s1 t { s1 t with container := some (f (argValue s1 t)) }
        walkI fuel (completeExchange s2 t) t ((s2 t).pending)

/-- Walk of Expression::complete under ImmediateDispatch: dispatch, that
is evaluate, each captured waiting task after pointing its var here. -/
def walkI : Nat → IState → Nat → Option Nat → IState
  | _, s, _, none => s
  | 0, s, _, some _ => s
  | fuel + 1, s, this, some w =>
    let next := (s w).var
    let s1 := upd s w { s w with var := some this }
    walkI fuel (evaluateI fuel s1 w) this next

end

/-- Expression::chain under ImmediateDispatch: dispatch the successor at
once when the sentinel is observed, otherwise link it via CAS. -/
def chainI (fuel : Nat) (s : IState) (this succ : Nat) : IState :=
  let prior := (s this).pending
  if prior = some this then
    evaluateI fuel (upd s succ { s succ with var := some this }) succ
  else
    let t1 := upd s succ { s succ with var := prior }
    upd t1 this { t1 this with pending := some succ }

/-- Completing a promise with a value: construct the container value,
then evaluate the Argument node (which completes and dispatches). -/
def promiseComplete (fuel : Nat) (s : IState) (p v : Nat) : IState :=
  evaluateI fuel (upd s p { s p with container := some v }) p

/-- Initial graph of the composition scenario: task 0 is the promise,
task 1 a continuation over f, task 2 a continuation over g. -/
def itasks0 (f g : Nat → Nat) : IState := fun n =>
  if n = 0 then ⟨none, none, none, IKind.argument, 0⟩
  else if n = 1 then ⟨none, none, none, IKind.cont f, 0⟩
  else ⟨none, none, none, IKind.cont g, 0⟩

/-- C8: chaining .then(f).then(g) on a promise and then completing it
with v leaves f v in the first continuation container and g (f v) in
the second, each continuation evaluated exactly once, and both
continuations completed (pending at the sentinel). -/
theorem continuation_composes (v : Nat) (f g : Nat → Nat) :
    ((promiseComplete 9 (chainI 9 (chainI 9 (itasks0 f g) 0 1) 1 2) 0 v) 1).container
        = some (f v)
    ∧ ((promiseComplete 9 (chainI 9 (chainI 9 (itasks0 f g) 0 1) 1 2) 0 v) 2).container
        = some (g (f v))
    ∧ ((promiseComplete 9 (chainI 9 (chainI 9 (itasks0 f g) 0 1) 1 2) 0 v) 1).evals = 1
    ∧ ((promiseComplete 9 (chainI 9 (chainI 9 (itasks0 f g) 0 1) 1 2) 0 v) 2).evals = 1
    ∧ ((promiseComplete 9 (chainI 9 (chainI 9 (itasks0 f g) 0 1) 1 2) 0 v) 1).pending
        = some 1
    ∧ ((promiseComplete 9 (chainI 9 (chainI 9 (itasks0 f g) 0 1) 1 2) 0 v) 2).pending
        = some 2 := by
  refine ⟨?_, ?_, ?_, ?_, ?_, ?_⟩ <;>
    simp [promiseComplete, chainI, evaluateI, walkI, completeExchange, argValue,
      itasks0, upd]

/-! ### Worker event loop, two-phase idle (part_000 Worker::operator(),
part_001 Worker::operator() with MessageAgent)

Per iteration the worker drains every connection and counts the normal
tasks it evaluated (processed).  With processed == 0 it either arms
prepare_idle (first empty pass) or, when already armed, sleeps in
idle.yield and clears prepare_idle afterwards (exiting instead when
yield returns false); any pass with processed > 0 clears prepare_idle.
The outcome of each drain pass (its task count, and the yield verdict
if the worker sleeps) is the input; the model emits one event per
executed pass recording the flag on entry and whether the worker slept
at the end of the pass.  prepare_idle starts false.
-/

structure PassIn where
  processed : Nat
  yieldOk : Bool
deriving DecidableEq, Repr

structure PassEv where
  prepareBefore : Bool
  processed : Nat
  slept : Bool
deriving DecidableEq, Repr

/-- One event per executed pass of the worker loop; the trace stops when
yield signals exit. -/
def workerPasses : Bool → List PassIn → List PassEv
  | _, [] => []
  | b, p :: ps =>
    if p.processed = 0 then
      if b then
        if p.yieldOk then ⟨b, p.processed, true⟩ :: workerPasses false ps
        else [⟨b, p.processed, true⟩]
      else ⟨b, p.processed, false⟩ :: workerPasses true ps
    else ⟨b, p.processed, false⟩ :: workerPasses false ps

/-- The first emitted event carries the entry flag. -/
theorem workerPasses_head_prepare (b : Bool) (ins : List PassIn) (ev : PassEv)
    (h : (workerPasses b ins)[0]? = some ev) : ev.prepareBefore = b := by
  cases ins with
  | nil => simp [workerPasses] at h
  | cons p ps =>
    by_cases hz : p.processed = 0
    · cases b with
      | false =>
        simp [workerPasses, hz] at h
        rw [← h]
      | true =>
        by_cases hy : p.yieldOk <;> simp [workerPasses, hz, hy] at h <;> rw [← h]
    · simp [workerPasses, hz] at h
      rw [← h]

/-- A sleeping pass processed zero tasks with the flag already set. -/
theorem workerPasses_slept (ins : List PassIn) :
    ∀ (b : Bool) (i : Nat) (ev : PassEv), (workerPasses b ins)[i]? = some ev →
      ev.slept = true → ev.processed = 0 ∧ ev.prepareBefore = true := by
  induction ins with
  | nil => intro b i ev h; simp [workerPasses] at h
  | cons p ps ih =>
    intro b i ev h hs
    by_cases hz : p.processed = 0
    · cases b with
      | false =>
        simp only [workerPasses, hz, if_pos, if_neg, ite_true, ite_false,
          Bool.false_eq_true] at h
        cases i with
        | zero =>
          simp at h
          rw [← h] at hs
          simp at hs
        | succ n =>
          simp at h
          exact ih true n ev h hs
      | true =>
        by_cases hy : p.yieldOk
        · simp only [workerPasses, hz, hy, if_pos, ite_true] at h
          cases i with
          | zero =>
            simp at h
            rw [← h]
            exact ⟨rfl, rfl⟩
          | succ n =>
            simp at h
            exact ih false n ev h hs
        · simp only [workerPasses, hz, hy, if_pos, if_neg, ite_true, ite_false] at h
          cases i with
          | zero =>
            simp at h
            rw [← h]
            exact ⟨rfl, rfl⟩
          | succ n => simp at h
    · simp only [workerPasses, hz, if_neg, ite_false] at h
      cases i with
      | zero =>
        simp at h
        rw [← h] at hs
        simp at hs
      | succ n =>
        simp at h
        exact ih false n ev h hs

/-- The flag on entry of a pass is set exactly when the previous pass
processed zero tasks without sleeping. -/
theorem workerPasses_prepare_iff (ins : List PassIn) :
    ∀ (b : Bool) (i : Nat) (ev ev' : PassEv), (workerPasses b ins)[i]? = some ev →
      (workerPasses b ins)[i + 1]? = some ev' →
      (ev'.prepareBefore = true ↔ (ev.processed = 0 ∧ ev.slept = false)) := by
  induction ins with
  | nil => intro b i ev ev' h _; simp [workerPasses] at h
  | cons p ps ih =>
    intro b i ev ev' h h'
    by_cases hz : p.processed = 0
    · cases b with
      | false =>
        simp only [workerPasses, hz, if_pos, if_neg, ite_true, ite_false,
          Bool.false_eq_true] at h h'
        cases i with
        | zero =>
          simp at h h'
          have := workerPasses_head_prepare true ps ev' h'
          rw [← h, this]
          simp [hz]
        | succ n =>
          simp at h h'
          exact ih true n ev ev' h h'
      | true =>
        by_cases hy : p.yieldOk
        · simp only [workerPasses, hz, hy, if_pos, ite_true] at h h'
          cases i with
          | zero =>
            simp at h h'
            have := workerPasses_head_prepare false ps ev' h'
            rw [← h, this]
            simp
          | succ n =>
            simp at h h'
            exact ih false n ev ev' h h'
        · simp only [workerPasses, hz, hy, if_pos, if_neg, ite_true, ite_false] at h h'
          cases i with
          | zero => simp at h'
          | succ n => simp at h
    · simp only [workerPasses, hz, if_neg, ite_false] at h h'
      cases i with
      | zero =>
        simp at h h'
        have := workerPasses_head_prepare false ps ev' h'
        rw [← h, this]
        simp [hz]
      | succ n =>
        simp at h h'
        exact ih false n ev ev' h h'

/-- C7: in every execution of the worker event loop the worker sleeps
only on a pass that processed zero normal tasks and whose prepare_idle
flag was set by the immediately preceding pass, itself a pass that
processed zero tasks without sleeping; a pass that evaluates at least
one task leaves the flag cleared for the next pass; the flag starts
false so the first pass never sleeps; hence a sleep requires two
consecutive fully empty passes. -/
theorem worker_two_phase_idle (ins : List PassIn) (i : Nat) (ev ev' : PassEv)
    (h : (workerPasses false ins)[i]? = some ev)
    (h' : (workerPasses false ins)[i + 1]? = some ev') :
    (ev'.slept = true → ev'.processed = 0 ∧ ev'.prepareBefore = true)
    ∧ (ev'.prepareBefore = true ↔ (ev.processed = 0 ∧ ev.slept = false))
    ∧ (∀ ev0, (workerPasses false ins)[0]? = some ev0 → ev0.prepareBefore = false)
    ∧ (ev'.slept = true → ev.processed = 0 ∧ ev'.processed = 0) := by
  have hA := workerPasses_slept ins false (i + 1) ev' h'
  have hB := workerPasses_prepare_iff ins false i ev ev' h h'
  refine ⟨hA, hB, ?_, ?_⟩
  · intro ev0 h0
    exact workerPasses_head_prepare false ins ev0 h0
  · intro hs
    obtain ⟨hz', hpb⟩ := hA hs
    obtain ⟨hz, _⟩ := hB.mp hpb
    exact ⟨hz, hz'⟩

/-- Witness of the two-phase idle theorem on a concrete trace: one busy
pass, then two empty passes, the second of which sleeps. -/
theorem worker_two_phase_idle_witness :
    ((workerPasses false [⟨0, true⟩, ⟨0, true⟩, ⟨3, true⟩])[1]?
        = some ⟨true, 0, true⟩)
    ∧ (PassEv.slept ⟨true, 0, true⟩ = true →
        PassEv.processed ⟨false, 0, false⟩ = 0 ∧ PassEv.processed ⟨true, 0, true⟩ = 0) := by
  refine ⟨by decide, ?_⟩
  exact (worker_two_phase_idle [⟨0, true⟩, ⟨0, true⟩, ⟨3, true⟩] 0
    ⟨false, 0, false⟩ ⟨true, 0, true⟩ (by decide) (by decide)).2.2.2

/-! ### Idle primitive detail::idle::Wait (part_001 lines 48-102)

State: the armed flag (atomic bool, whether the thread is allowed to
sleep) and the enabled flag.  yield: under the mutex, when enabled it
waits on the condition only if armed, then re-arms, and returns
enabled; when disabled it returns false without touching armed.
interrupt: exchange armed to false, notifying (one syscall) only when
the exchange captured true.  enable(v): store v and notify.  Both flags
start true.
-/

structure WaitState where
  armed : Bool
  enabled : Bool
deriving DecidableEq, Repr

/-- Initial Wait state: armed{true}, enabled = true. -/
def Wait.init : WaitState := ⟨true, true⟩

structure YieldResult where
  result : Bool
  blocked : Bool
  state : WaitState
deriving DecidableEq, Repr

/-- Wait::yield, also recording whether the condition wait was entered. -/
def Wait.yield (s : WaitState) : YieldResult :=
  if s.enabled then
    { result := s.enabled, blocked := s.armed, state := { s with armed := true } }
  else
    { result := s.enabled, blocked := false, state := s }

/-- Wait::interrupt: exchange armed to false; the Bool reports whether
the condition variable was notified (the captured signal). -/
def Wait.interrupt (s : WaitState) : Bool × WaitState :=
  (s.armed, { s with armed := false })

/-- Wait::enable: store the value (and notify, always succeeding). -/
def Wait.enable (s : WaitState) (value : Bool) : WaitState :=
  { s with enabled := value }

inductive WOp where
  | yield
  | interrupt
  | enable (value : Bool)

def applyWOp (s : WaitState) : WOp → WaitState
  | .yield => (Wait.yield s).state
  | .interrupt => (Wait.interrupt s).2
  | .enable v => Wait.enable s v

def runWOps (s : WaitState) : List WOp → WaitState
  | [] => s
  | op :: ops => runWOps (applyWOp s op) ops

/-- Value carried by the most recent enable of a trace, if any. -/
def lastEnable : List WOp → Option Bool
  | [] => none
  | op :: ops =>
    match lastEnable ops with
    | some v => some v
    | none =>
      match op with
      | .enable v => some v
      | _ => none

/-- The enabled flag after a trace equals the latest enable value. -/
theorem runWOps_enabled (ops : List WOp) :
    ∀ s : WaitState, (runWOps s ops).enabled = (lastEnable ops).getD s.enabled := by
  induction ops with
  | nil => intro s; rfl
  | cons op ops ih =>
    intro s
    have hstep : runWOps s (op :: ops) = runWOps (applyWOp s op) ops := rfl
    rw [hstep, ih]
    cases hlast : lastEnable ops with
    | some v => simp [lastEnable, hlast]
    | none =>
      cases op with
      | yield =>
        simp only [lastEnable, hlast, applyWOp, Wait.yield]
        by_cases he : s.enabled <;> simp [he]
      | interrupt => simp [lastEnable, hlast, applyWOp, Wait.interrupt]
      | enable v => simp [lastEnable, hlast, applyWOp, Wait.enable]

/-- C9: yield returns exactly the enabled flag, which after any trace
from the initial state is false exactly when the latest enable carried
false (the unique exit signal); interrupt disarms so that the next
yield does not block; interrupt notifies exactly when it captured the
armed flag, so repeated interrupts are debounced; yield on an enabled
worker re-arms, consuming one wakeup per wait; interrupt and enable are
total and enable always stores its value. -/
theorem idle_wait_contract :
    (∀ s : WaitState, (Wait.yield s).result = s.enabled)
    ∧ (∀ ops : List WOp,
        (runWOps Wait.init ops).enabled = (lastEnable ops).getD true)
    ∧ (∀ s : WaitState, (Wait.interrupt s).2.armed = false
        ∧ (Wait.yield (Wait.interrupt s).2).blocked = false)
    ∧ (∀ s : WaitState, (Wait.interrupt s).1 = s.armed)
    ∧ (∀ s : WaitState, (Wait.interrupt (Wait.interrupt s).2).1 = false)
    ∧ (∀ s : WaitState, (Wait.yield s).state.armed = (s.enabled || s.armed))
    ∧ (∀ s : WaitState, ∀ v : Bool, (Wait.enable s v).enabled = v
        ∧ (Wait.enable s v).armed = s.armed
        ∧ (Wait.interrupt s).2.enabled = s.enabled) := by
  refine ⟨?_, ?_, ?_, ?_, ?_, ?_, ?_⟩
  · intro s
    by_cases he : s.enabled <;> simp [Wait.yield, he]
  · intro ops
    exact runWOps_enabled ops Wait.init
  · intro s
    refine ⟨rfl, ?_⟩
    by_cases he : s.enabled <;> simp [Wait.yield, Wait.interrupt, he]
  · intro s
    rfl
  · intro s
    rfl
  · intro s
    by_cases he : s.enabled <;> simp [Wait.yield, he]
  · intro s v
    exact ⟨rfl, rfl, rfl⟩

/-! ### Reference counting (part_005 referenced::Object, referenced::Pointer)

The heap maps live object identifiers to their reference counts;
referenced::Object starts with references{ 0 }.  acquire(base) is a
no-op on null and otherwise increments; release(base) is a no-op on
null and otherwise decrements, deleting the object exactly when the
captured prior count was 1.  (The count is size_t: decrementing from 0
wraps mod 2^64 in the source; the model truncates, and the invariant
below keeps every executed release at a positive count.)

Handles (referenced::Pointer) live in a slot list: a slot is none once
the handle is destroyed, otherwise it carries the object field of the
handle.  The ghost field ext counts outstanding raw references per
object: leak hands the owned reference out raw, usurp and the explicit
release consume one, the explicit acquire creates one.
-/

/-- acquire( base ): increment unless null.  Acquiring a dead object is
undefined in the source; the model leaves the heap unchanged. -/
def rcAcquire (heap : Nat → Option Nat) (p : Option Nat) : Nat → Option Nat :=
  match p with
  | none => heap
  | some o =>
    match heap o with
    | none => heap
    | some c => upd heap o (some (c + 1))

/-- release( base ): decrement unless null, deleting the object when the
prior count was 1. -/
def rcRelease (heap : Nat → Option Nat) (p : Option Nat) : Nat → Option Nat :=
  match p with
  | none => heap
  | some o =>
    match heap o with
    | none => heap
    | some c =>
      if c = 1 then upd heap o none
      else upd heap o (some (c - 1))

structure RCState where
  heap : Nat → Option Nat
  slots : List (Option (Option Nat))
  ext : Nat → Nat

/-- Field of a handle slot (none for a dead or null handle). -/
def slotVal (st : RCState) (i : Nat) : Option Nat :=
  match st.slots.get? i with
  | some (some f) => f
  | _ => none

/-- Number of live handles owning object o. -/
def owners (slots : List (Option (Option Nat))) (o : Nat) : Nat :=
  slots.countP (fun s => decide (s = some (some o)))

/-- The operations of referenced::Pointer plus raw acquire and release. -/
inductive POp where
  | newObj (o : Nat)
  | mkFromRaw (src : Option Nat)
  | copyCtor (src : Nat)
  | moveCtor (src : Nat)
  | assignRaw (dst : Nat) (src : Option Nat)
  | assignCopy (dst src : Nat)
  | assignMove (dst src : Nat)
  | usurp (dst : Nat) (src : Option Nat)
  | leak (slot : Nat)
  | dtor (slot : Nat)
  | rawAcquire (p : Option Nat)
  | rawRelease (p : Option Nat)

/-- Transition of one operation, translated from part_005: constructors
append a fresh handle slot, assignment acquires the new value before
releasing the old, move transfer leaves counts untouched, usurp
releases the old field and adopts the raw value, leak surrenders the
field raw, the destructor releases the field. -/
def applyPOp (st : RCState) : POp → RCState
  | .newObj o => { st with heap := upd st.heap o (some 0) }
  | .mkFromRaw src =>
      { st with heap := rcAcquire st.heap src
                slots := st.slots ++ [some src] }
  | .copyCtor s =>
      { st with heap := rcAcquire st.heap (slotVal st s)
                slots := st.slots ++ [some (slotVal st s)] }
  | .moveCtor s =>
      { st with slots := (st.slots.set s (some none)) ++ [some (slotVal st s)] }
  | .assignRaw d src =>
      { st with heap := rcRelease (rcAcquire st.heap src) (slotVal st d)
                slots := st.slots.set d (some src) }
  | .assignCopy d s =>
      { st with heap := rcRelease (rcAcquire st.heap (slotVal st s)) (slotVal st d)
                slots := st.slots.set d (some (slotVal st s)) }
  | .assignMove d s =>
      { st with heap := rcRelease st.heap (slotVal st d)
                slots := (st.slots.set s (some none)).set d (some (slotVal st s)) }
  | .usurp d src =>
      { st with heap := rcRelease st.heap (slotVal st d)
                slots := st.slots.set d (some src)
                ext := match src with
                       | some o => upd st.ext o (st.ext o - 1)
                       | none => st.ext }
  | .leak s =>
      { st with slots := st.slots.set s (some none)
                ext := match slotVal st s with
                       | some o => upd st.ext o (st.ext o + 1)
                       | none => st.ext }
  | .dtor s =>
      { st with heap := rcRelease st.heap (slotVal st s)
                slots := st.slots.set s none }
  | .rawAcquire p =>
      { st with heap := rcAcquire st.heap p
                ext := match p with
                       | some o => upd st.ext o (st.ext o + 1)
                       | none => st.ext }
  | .rawRelease p =>
      { st with heap := rcRelease st.heap p
                ext := match p with
                       | some o => upd st.ext o (st.ext o - 1)
                       | none => st.ext }

/-- Well-formedness of an operation in a state: handles exist, fresh
identifiers are fresh, raw adoption consumes an outstanding raw
reference, raw pointers refer to live objects. -/
def wfPOp (st : RCState) : POp → Prop
  | .newObj o => st.heap o = none
  | .mkFromRaw src => ∀ o, src = some o → st.heap o ≠ none
  | .copyCtor s => st.slots.get? s = some (some (slotVal st s))
  | .moveCtor s => st.slots.get? s = some (some (slotVal st s))
  | .assignRaw d src => st.slots.get? d = some (some (slotVal st d))
      ∧ ∀ o, src = some o → st.heap o ≠ none
  | .assignCopy d s => st.slots.get? d = some (some (slotVal st d))
      ∧ st.slots.get? s = some (some (slotVal st s))
  | .assignMove d s => st.slots.get? d = some (some (slotVal st d))
      ∧ st.slots.get? s = some (some (slotVal st s)) ∧ d ≠ s
  | .usurp d src => st.slots.get? d = some (some (slotVal st d))
      ∧ ∀ o, src = some o → 1 ≤ st.ext o
  | .leak s => st.slots.get? s = some (some (slotVal st s))
  | .dtor s => st.slots.get? s = some (some (slotVal st s))
  | .rawAcquire p => ∀ o, p = some o → st.heap o ≠ none
  | .rawRelease p => ∀ o, p = some o → 1 ≤ st.ext o

/-- The handle invariant: the count of every live object equals its
owning handles plus its outstanding raw references, and dead objects
have neither. -/
def rcInvariant (st : RCState) : Prop :=
  (∀ o c, st.heap o = some c → c = owners st.slots o + st.ext o)
  ∧ (∀ o, st.heap o = none → owners st.slots o = 0 ∧ st.ext o = 0)

theorem countP_set_add {α : Type} (p : α → Bool) :
    ∀ (l : List α) (i : Nat) (w : α), l.get? i = some w → ∀ v : α,
      (l.set i v).countP p + (if p w then 1 else 0)
        = l.countP p + (if p v then 1 else 0) := by
  intro l
  induction l with
  | nil => intro i w h; simp at h
  | cons a tl ih =>
    intro i w h v
    cases i with
    | zero =>
      simp only [List.get?_cons_zero, Option.some_inj] at h
      subst h
      simp only [List.set_cons_zero, List.countP_cons]
      omega
    | succ n =>
      simp only [List.get?_cons_succ] at h
      simp only [List.set_cons_succ, List.countP_cons]
      have := ih n w h v
      omega

/-- Appending a handle adds one owner of the object it references. -/
theorem owners_append (l : List (Option (Option Nat))) (f : Option Nat) (o : Nat) :
    owners (l ++ [some f]) o = owners l o + (if f = some o then 1 else 0) := by
  unfold owners
  rw [List.countP_append]
  simp only [List.countP_cons, List.countP_nil]
  by_cases h : f = some o <;> simp [h]

/-- Rewriting a handle exchanges its owner contribution. -/
theorem owners_set (l : List (Option (Option Nat))) (i : Nat) (w : Option (Option Nat))
    (h : l.get? i = some w) (v : Option (Option Nat)) (o : Nat) :
    owners (l.set i v) o + (if w = some (some o) then 1 else 0)
      = owners l o + (if v = some (some o) then 1 else 0) := by
  unfold owners
  have := countP_set_add (fun s => decide (s = some (some o))) l i w h v
  by_cases hw : w = some (some o) <;> by_cases hv : v = some (some o) <;>
    simp [hw, hv] at this ⊢ <;> omega

/-- A handle slot holding object o witnesses at least one owner. -/
theorem owners_pos (l : List (Option (Option Nat))) (i o : Nat)
    (h : l.get? i = some (some (some o))) : 1 ≤ owners l o := by
  have hmem : some (some o) ∈ l := List.get?_mem h
  unfold owners
  rw [Nat.succ_le, List.countP_pos_iff]
  exact ⟨some (some o), hmem, by simp⟩

theorem rcAcquire_ne (heap : Nat → Option Nat) (p : Option Nat) (o : Nat)
    (h : p ≠ some o) : rcAcquire heap p o = heap o := by
  cases p with
  | none => rfl
  | some q =>
    have hq : q ≠ o := fun he => h (he ▸ rfl)
    cases hhq : heap q with
    | none => simp [rcAcquire, hhq]
    | some c => simp [rcAcquire, hhq, upd_other _ _ _ _ (Ne.symm hq)]

theorem rcRelease_ne (heap : Nat → Option Nat) (p : Option Nat) (o : Nat)
    (h : p ≠ some o) : rcRelease heap p o = heap o := by
  cases p with
  | none => rfl
  | some q =>
    have hq : q ≠ o := fun he => h (he ▸ rfl)
    cases hhq : heap q with
    | none => simp [rcRelease, hhq]
    | some c =>
      by_cases hc : c = 1 <;> simp [rcRelease, hhq, hc, upd_other _ _ _ _ (Ne.symm hq)]

theorem rcAcquire_live (heap : Nat → Option Nat) (o c : Nat) (h : heap o = some c) :
    rcAcquire heap (some o) o = some (c + 1) := by
  simp [rcAcquire, h, upd_same]

theorem rcRelease_live (heap : Nat → Option Nat) (o c : Nat) (h : heap o = some c) :
    rcRelease heap (some o) o = if c = 1 then none else some (c - 1) := by
  by_cases hc : c = 1 <;> simp [rcRelease, h, hc, upd_same]

/-- An owned object is live with a positive count matching the invariant. -/
theorem live_of_owner {st : RCState} (hinv : rcInvariant st) {i o : Nat}
    (h : st.slots.get? i = some (some (some o))) :
    ∃ c, st.heap o = some c ∧ 1 ≤ owners st.slots o
      ∧ c = owners st.slots o + st.ext o := by
  have hpos := owners_pos st.slots i o h
  cases hh : st.heap o with
  | none =>
    have := (hinv.2 o hh).1
    omega
  | some c => exact ⟨c, rfl, hpos, hinv.1 o c hh⟩

/-- An object with an outstanding raw reference is live. -/
theorem live_of_ext {st : RCState} (hinv : rcInvariant st) {o : Nat}
    (h : 1 ≤ st.ext o) :
    ∃ c, st.heap o = some c ∧ c = owners st.slots o + st.ext o := by
  cases hh : st.heap o with
  | none =>
    have := (hinv.2 o hh).2
    omega
  | some c => exact ⟨c, rfl, hinv.1 o c hh⟩

/-- Acquiring a live (or null) value and appending a handle for it
preserves the invariant: the contract of the two Pointer constructors. -/
theorem rcInvariant_acquire_append (st : RCState) (f : Option Nat)
    (hlive : ∀ o, f = some o → st.heap o ≠ none)
    (hinv : rcInvariant st) :
    rcInvariant { st with heap := rcAcquire st.heap f
                          slots := st.slots ++ [some f] } := by
  obtain ⟨hc, hn⟩ := hinv
  constructor
  · intro o c hco
    dsimp only at hco ⊢
    rw [owners_append]
    by_cases hfo : f = some o
    · obtain ⟨c0, hh0⟩ : ∃ c0, st.heap o = some c0 := by
        cases hh : st.heap o with
        | none => exact absurd hh (hlive o hfo)
        | some c0 => exact ⟨c0, rfl⟩
      rw [hfo, rcAcquire_live st.heap o c0 hh0] at hco
      simp only [Option.some.injEq] at hco
      have := hc o c0 hh0
      simp only [hfo, if_pos]
      omega
    · rw [rcAcquire_ne st.heap f o hfo] at hco
      have := hc o c hco
      simp only [hfo, if_neg, ite_false]
      omega
  · intro o hdead
    dsimp only at hdead ⊢
    rw [owners_append]
    by_cases hfo : f = some o
    · obtain ⟨c0, hh0⟩ : ∃ c0, st.heap o = some c0 := by
        cases hh : st.heap o with
        | none => exact absurd hh (hlive o hfo)
        | some c0 => exact ⟨c0, rfl⟩
      rw [hfo, rcAcquire_live st.heap o c0 hh0] at hdead
      exact absurd hdead (by simp)
    · rw [rcAcquire_ne st.heap f o hfo] at hdead
      have := hn o hdead
      simp only [hfo, if_neg, ite_false]
      omega

/-- Moving a handle (steal the field, null the source, append the new
handle) changes no count and preserves the invariant. -/
theorem rcInvariant_move_append (st : RCState) (s : Nat)
    (hs : st.slots.get? s = some (some (slotVal st s)))
    (hinv : rcInvariant st) :
    rcInvariant { st with
      slots := (st.slots.set s (some none)) ++ [some (slotVal st s)] } := by
  obtain ⟨hc, hn⟩ := hinv
  have howners : ∀ o, owners ((st.slots.set s (some none)) ++ [some (slotVal st s)]) o
      = owners st.slots o := by
    intro o
    rw [owners_append]
    have := owners_set st.slots s (some (slotVal st s)) hs (some none) o
    by_cases hfo : slotVal st s = some o <;> simp [hfo] at this ⊢ <;> omega
  constructor
  · intro o c hco
    dsimp only at hco ⊢
    rw [howners]
    exact hc o c hco
  · intro o hdead
    dsimp only at hdead ⊢
    rw [howners]
    exact hn o hdead

theorem get?_set_of_ne {α : Type} :
    ∀ (l : List α) (i j : Nat) (v : α), i ≠ j → (l.set i v).get? j = l.get? j := by
  intro l
  induction l with
  | nil => intro i j v _; simp
  | cons a tl ih =>
    intro i j v hij
    cases i with
    | zero =>
      cases j with
      | zero => exact absurd rfl hij
      | succ m => simp [List.set_cons_zero]
    | succ n =>
      cases j with
      | zero => simp [List.set_cons_succ]
      | succ m =>
        simp only [List.set_cons_succ, List.get?_cons_succ]
        exact ih n m v (fun he => hij (he ▸ rfl))

/-- Acquire the incoming value, release the outgoing one, rewrite the
handle: the shared contract of the assignment operators of Pointer. -/
theorem rcInvariant_acquire_release_set (st : RCState) (d : Nat) (f : Option Nat)
    (hd : st.slots.get? d = some (some (slotVal st d)))
    (hlive : ∀ o, f = some o → st.heap o ≠ none)
    (hinv : rcInvariant st) :
    rcInvariant { st with
      heap := rcRelease (rcAcquire st.heap f) (slotVal st d)
      slots := st.slots.set d (some f) } := by
  obtain ⟨hc, hn⟩ := hinv
  have howners : ∀ o : Nat,
      owners (st.slots.set d (some f)) o + (if slotVal st d = some o then 1 else 0)
        = owners st.slots o + (if f = some o then 1 else 0) := by
    intro o
    have := owners_set st.slots d (some (slotVal st d)) hd (some f) o
    by_cases h1 : slotVal st d = some o <;> by_cases h2 : f = some o <;>
      simp [h1, h2] at this ⊢ <;> omega
  have haux : ∀ o : Nat,
      (∀ c, rcRelease (rcAcquire st.heap f) (slotVal st d) o = some c →
        c = owners (st.slots.set d (some f)) o + st.ext o)
      ∧ (rcRelease (rcAcquire st.heap f) (slotVal st d) o = none →
        owners (st.slots.set d (some f)) o = 0 ∧ st.ext o = 0) := by
    intro o
    have hown := howners o
    by_cases hoo : slotVal st d = some o <;> by_cases hfo : f = some o
    · -- the handle held o and readopts it: count net unchanged
      rw [hoo] at hd
      have hpos := owners_pos st.slots d o hd
      obtain ⟨c0, hh0⟩ : ∃ c0, st.heap o = some c0 := by
        cases hh : st.heap o with
        | none => exact absurd hh (hlive o hfo)
        | some c0 => exact ⟨c0, rfl⟩
      have hco := hc o c0 hh0
      have hacq : rcAcquire st.heap f o = some (c0 + 1) := by
        rw [hfo]
        exact rcAcquire_live st.heap o c0 hh0
      have hrel := rcRelease_live (rcAcquire st.heap f) o (c0 + 1) hacq
      rw [hoo, hrel]
      rw [if_pos hoo, if_pos hfo] at hown
      constructor
      · intro c hcr
        rw [if_neg (by omega)] at hcr
        simp only [Option.some.injEq] at hcr
        omega
      · intro hdead
        rw [if_neg (by omega)] at hdead
        exact absurd hdead (by simp)
    · -- the handle held o and releases it
      rw [hoo] at hd
      have hpos := owners_pos st.slots d o hd
      obtain ⟨c0, hh0⟩ : ∃ c0, st.heap o = some c0 := by
        cases hh : st.heap o with
        | none =>
          have := (hn o hh).1
          omega
        | some c0 => exact ⟨c0, rfl⟩
      have hco := hc o c0 hh0
      have hacq : rcAcquire st.heap f o = some c0 := by
        rw [rcAcquire_ne st.heap f o hfo]
        exact hh0
      have hrel := rcRelease_live (rcAcquire st.heap f) o c0 hacq
      rw [hoo, hrel]
      rw [if_pos hoo, if_neg hfo] at hown
      constructor
      · intro c hcr
        by_cases hc1 : c0 = 1
        · rw [if_pos hc1] at hcr
          exact absurd hcr (by simp)
        · rw [if_neg hc1] at hcr
          simp only [Option.some.injEq] at hcr
          omega
      · intro hdead
        by_cases hc1 : c0 = 1
        · omega
        · rw [if_neg hc1] at hdead
          exact absurd hdead (by simp)
    · -- the handle adopts o, releasing an unrelated value
      obtain ⟨c0, hh0⟩ : ∃ c0, st.heap o = some c0 := by
        cases hh : st.heap o with
        | none => exact absurd hh (hlive o hfo)
        | some c0 => exact ⟨c0, rfl⟩
      have hco := hc o c0 hh0
      have hacq : rcAcquire st.heap f o = some (c0 + 1) := by
        rw [hfo]
        exact rcAcquire_live st.heap o c0 hh0
      have hval : rcRelease (rcAcquire st.heap f) (slotVal st d) o = some (c0 + 1) := by
        rw [rcRelease_ne _ _ _ hoo]
        exact hacq
      rw [hval]
      rw [if_neg hoo, if_pos hfo] at hown
      constructor
      · intro c hcr
        simp only [Option.some.injEq] at hcr
        omega
      · intro hdead
        exact absurd hdead (by simp)
    · -- o uninvolved
      have hval : rcRelease (rcAcquire st.heap f) (slotVal st d) o = st.heap o := by
        rw [rcRelease_ne _ _ _ hoo, rcAcquire_ne _ _ _ hfo]
      rw [hval]
      rw [if_neg hoo, if_neg hfo] at hown
      constructor
      · intro c hcr
        have := hc o c hcr
        omega
      · intro hdead
        have := hn o hdead
        omega
  exact ⟨fun o c hco => (haux o).1 c hco, fun o hdead => (haux o).2 hdead⟩

/-- The Pointer destructor: release the field and retire the handle. -/
theorem rcInvariant_dtor (st : RCState) (s : Nat)
    (hs : st.slots.get? s = some (some (slotVal st s)))
    (hinv : rcInvariant st) :
    rcInvariant { st with heap := rcRelease st.heap (slotVal st s)
                          slots := st.slots.set s none } := by
  obtain ⟨hc, hn⟩ := hinv
  have howners : ∀ o : Nat,
      owners (st.slots.set s none) o + (if slotVal st s = some o then 1 else 0)
        = owners st.slots o := by
    intro o
    have := owners_set st.slots s (some (slotVal st s)) hs none o
    by_cases h1 : slotVal st s = some o <;> simp [h1] at this ⊢ <;> omega
  have haux : ∀ o : Nat,
      (∀ c, rcRelease st.heap (slotVal st s) o = some c →
        c = owners (st.slots.set s none) o + st.ext o)
      ∧ (rcRelease st.heap (slotVal st s) o = none →
        owners (st.slots.set s none) o = 0 ∧ st.ext o = 0) := by
    intro o
    have hown := howners o
    by_cases hoo : slotVal st s = some o
    · rw [hoo] at hs
      have hpos := owners_pos st.slots s o hs
      obtain ⟨c0, hh0⟩ : ∃ c0, st.heap o = some c0 := by
        cases hh : st.heap o with
        | none =>
          have := (hn o hh).1
          omega
        | some c0 => exact ⟨c0, rfl⟩
      have hco := hc o c0 hh0
      have hrel := rcRelease_live st.heap o c0 hh0
      rw [hoo, hrel]
      rw [if_pos hoo] at hown
      constructor
      · intro c hcr
        by_cases hc1 : c0 = 1
        · rw [if_pos hc1] at hcr
          exact absurd hcr (by simp)
        · rw [if_neg hc1] at hcr
          simp only [Option.some.injEq] at hcr
          omega
      · intro hdead
        by_cases hc1 : c0 = 1
        · omega
        · rw [if_neg hc1] at hdead
          exact absurd hdead (by simp)
    · have hval : rcRelease st.heap (slotVal st s) o = st.heap o :=
        rcRelease_ne _ _ _ hoo
      rw [hval]
      rw [if_neg hoo] at hown
      constructor
      · intro c hcr
        have := hc o c hcr
        omega
      · intro hdead
        have := hn o hdead
        omega
  exact ⟨fun o c hco => (haux o).1 c hco, fun o hdead => (haux o).2 hdead⟩

/-- usurp: adopt a raw reference without acquiring, releasing the old
field; consumes one outstanding raw reference. -/
theorem rcInvariant_usurp (st : RCState) (d : Nat) (src : Option Nat)
    (hd : st.slots.get? d = some (some (slotVal st d)))
    (hext : ∀ o, src = some o → 1 ≤ st.ext o)
    (hinv : rcInvariant st) :
    rcInvariant (applyPOp st (POp.usurp d src)) := by
  cases src with
  | none =>
    exact rcInvariant_acquire_release_set st d none hd
      (fun o h => Option.noConfusion h) hinv
  | some o1 =>
    obtain ⟨hc, hn⟩ := hinv
    have hx1 : 1 ≤ st.ext o1 := hext o1 rfl
    obtain ⟨c1, hh1⟩ : ∃ c1, st.heap o1 = some c1 := by
      cases hh : st.heap o1 with
      | none =>
        have := (hn o1 hh).2
        omega
      | some c1 => exact ⟨c1, rfl⟩
    have hc1 := hc o1 c1 hh1
    simp only [applyPOp]
    have howners : ∀ o : Nat,
        owners (st.slots.set d (some (some o1))) o
            + (if slotVal st d = some o then 1 else 0)
          = owners st.slots o + (if some o1 = some o then 1 else 0) := by
      intro o
      have := owners_set st.slots d (some (slotVal st d)) hd (some (some o1)) o
      by_cases h1 : slotVal st d = some o <;> by_cases h2 : (o1 : Nat) = o <;>
        simp [h1, h2] at this ⊢ <;> omega
    have haux : ∀ o : Nat,
        (∀ c, rcRelease st.heap (slotVal st d) o = some c →
          c = owners (st.slots.set d (some (some o1))) o
              + upd st.ext o1 (st.ext o1 - 1) o)
        ∧ (rcRelease st.heap (slotVal st d) o = none →
          owners (st.slots.set d (some (some o1))) o = 0
          ∧ upd st.ext o1 (st.ext o1 - 1) o = 0) := by
      intro o
      have hown := howners o
      by_cases hoo : slotVal st d = some o <;> by_cases ho1 : o = o1
      · -- the handle held o and readopts the same object raw
        subst ho1
        rw [hoo] at hd
        have hpos := owners_pos st.slots d o hd
        have hrel := rcRelease_live st.heap o c1 hh1
        rw [hoo, hrel, upd_same]
        rw [if_pos hoo, if_pos rfl] at hown
        constructor
        · intro c hcr
          rw [if_neg (by omega)] at hcr
          simp only [Option.some.injEq] at hcr
          omega
        · intro hdead
          rw [if_neg (by omega)] at hdead
          exact absurd hdead (by simp)
      · -- the handle held o, adopts o1
        rw [hoo] at hd
        have hpos := owners_pos st.slots d o hd
        obtain ⟨c0, hh0⟩ : ∃ c0, st.heap o = some c0 := by
          cases hh : st.heap o with
          | none =>
            have := (hn o hh).1
            omega
          | some c0 => exact ⟨c0, rfl⟩
        have hco := hc o c0 hh0
        have hrel := rcRelease_live st.heap o c0 hh0
        rw [hoo, hrel]
        rw [if_pos hoo, if_neg (fun he : some o1 = some o =>
          ho1 (by injection he with he'; exact he'.symm))] at hown
        rw [upd_other _ _ _ _ ho1]
        constructor
        · intro c hcr
          by_cases hc1' : c0 = 1
          · rw [if_pos hc1'] at hcr
            exact absurd hcr (by simp)
          · rw [if_neg hc1'] at hcr
            simp only [Option.some.injEq] at hcr
            omega
        · intro hdead
          by_cases hc1' : c0 = 1
          · omega
          · rw [if_neg hc1'] at hdead
            exact absurd hdead (by simp)
      · -- the handle held something else and adopts o = o1
        subst ho1
        have hval : rcRelease st.heap (slotVal st d) o = st.heap o :=
          rcRelease_ne _ _ _ hoo
        rw [hval, upd_same]
        rw [if_neg hoo, if_pos rfl] at hown
        constructor
        · intro c hcr
          rw [hh1] at hcr
          simp only [Option.some.injEq] at hcr
          omega
        · intro hdead
          rw [hh1] at hdead
          exact absurd hdead (by simp)
      · -- o uninvolved
        have hval : rcRelease st.heap (slotVal st d) o = st.heap o :=
          rcRelease_ne _ _ _ hoo
        rw [hval, upd_other _ _ _ _ ho1]
        rw [if_neg hoo, if_neg (fun he : some o1 = some o =>
          ho1 (by injection he with he'; exact he'.symm))] at hown
        constructor
        · intro c hcr
          have := hc o c hcr
          omega
        · intro hdead
          have := hn o hdead
          omega
    exact ⟨fun o c hco => (haux o).1 c hco, fun o hdead => (haux o).2 hdead⟩

/-- leak: surrender the owned reference raw; the count is untouched, the
handle stops owning, one raw reference becomes outstanding. -/
theorem rcInvariant_leak (st : RCState) (s : Nat)
    (hs : st.slots.get? s = some (some (slotVal st s)))
    (hinv : rcInvariant st) :
    rcInvariant (applyPOp st (POp.leak s)) := by
  obtain ⟨hc, hn⟩ := hinv
  cases hsv : slotVal st s with
  | none =>
    simp only [applyPOp, hsv]
    have howners : ∀ o : Nat, owners (st.slots.set s (some none)) o
        = owners st.slots o := by
      intro o
      rw [hsv] at hs
      have := owners_set st.slots s (some none) hs (some none) o
      omega
    exact ⟨fun o c hco => by rw [howners]; exact hc o c hco,
      fun o hdead => by rw [howners]; exact hn o hdead⟩
  | some o1 =>
    simp only [applyPOp, hsv]
    rw [hsv] at hs
    have hpos := owners_pos st.slots s o1 hs
    have howners : ∀ o : Nat, owners (st.slots.set s (some none)) o
          + (if some o1 = some o then 1 else 0)
        = owners st.slots o := by
      intro o
      have := owners_set st.slots s (some (some o1)) hs (some none) o
      by_cases h2 : (o1 : Nat) = o <;> simp [h2] at this ⊢ <;> omega
    constructor
    · intro o c hco
      dsimp only at hco ⊢
      have := hc o c hco
      have hown := howners o
      by_cases ho1 : o = o1
      · subst ho1
        rw [if_pos rfl] at hown
        rw [upd_same]
        omega
      · rw [if_neg (fun he : some o1 = some o =>
          ho1 (by injection he with he'; exact he'.symm))] at hown
        rw [upd_other _ _ _ _ ho1]
        omega
    · intro o hdead
      dsimp only at hdead ⊢
      have := hn o hdead
      have hown := howners o
      by_cases ho1 : o = o1
      · subst ho1
        omega
      · rw [if_neg (fun he : some o1 = some o =>
          ho1 (by injection he with he'; exact he'.symm))] at hown
        rw [upd_other _ _ _ _ ho1]
        omega

/-- Explicit acquire on a raw pointer: count and outstanding raw
references both grow by one (no-op on null). -/
theorem rcInvariant_rawAcquire (st : RCState) (p : Option Nat)
    (hlive : ∀ o, p = some o → st.heap o ≠ none)
    (hinv : rcInvariant st) :
    rcInvariant (applyPOp st (POp.rawAcquire p)) := by
  obtain ⟨hc, hn⟩ := hinv
  cases p with
  | none => exact ⟨hc, hn⟩
  | some o1 =>
    obtain ⟨c1, hh1⟩ : ∃ c1, st.heap o1 = some c1 := by
      cases hh : st.heap o1 with
      | none => exact absurd hh (hlive o1 rfl)
      | some c1 => exact ⟨c1, rfl⟩
    have hc1 := hc o1 c1 hh1
    simp only [applyPOp]
    constructor
    · intro o c hco
      dsimp only at hco ⊢
      by_cases ho1 : o = o1
      · subst ho1
        rw [rcAcquire_live st.heap o c1 hh1] at hco
        simp only [Option.some.injEq] at hco
        rw [upd_same]
        omega
      · rw [rcAcquire_ne st.heap _ o
          (fun he => ho1 (by injection he with he'; exact he'.symm))] at hco
        rw [upd_other _ _ _ _ ho1]
        exact hc o c hco
    · intro o hdead
      dsimp only at hdead ⊢
      by_cases ho1 : o = o1
      · subst ho1
        rw [rcAcquire_live st.heap o c1 hh1] at hdead
        exact absurd hdead (by simp)
      · rw [rcAcquire_ne st.heap _ o
          (fun he => ho1 (by injection he with he'; exact he'.symm))] at hdead
        rw [upd_other _ _ _ _ ho1]
        exact hn o hdead

/-- Explicit release of a raw reference: consumes one outstanding
reference, deleting the object when the count drops from one. -/
theorem rcInvariant_rawRelease (st : RCState) (p : Option Nat)
    (hext : ∀ o, p = some o → 1 ≤ st.ext o)
    (hinv : rcInvariant st) :
    rcInvariant (applyPOp st (POp.rawRelease p)) := by
  obtain ⟨hc, hn⟩ := hinv
  cases p with
  | none => exact ⟨hc, hn⟩
  | some o1 =>
    have hx1 : 1 ≤ st.ext o1 := hext o1 rfl
    obtain ⟨c1, hh1⟩ : ∃ c1, st.heap o1 = some c1 := by
      cases hh : st.heap o1 with
      | none =>
        have := (hn o1 hh).2
        omega
      | some c1 => exact ⟨c1, rfl⟩
    have hc1 := hc o1 c1 hh1
    have hrel := rcRelease_live st.heap o1 c1 hh1
    simp only [applyPOp]
    constructor
    · intro o c hco
      dsimp only at hco ⊢
      by_cases ho1 : o = o1
      · subst ho1
        rw [hrel] at hco
        by_cases hcc : c1 = 1
        · rw [if_pos hcc] at hco
          exact absurd hco (by simp)
        · rw [if_neg hcc] at hco
          simp only [Option.some.injEq] at hco
          rw [upd_same]
          omega
      · rw [rcRelease_ne st.heap _ o
          (fun he => ho1 (by injection he with he'; exact he'.symm))] at hco
        rw [upd_other _ _ _ _ ho1]
        exact hc o c hco
    · intro o hdead
      dsimp only at hdead ⊢
      by_cases ho1 : o = o1
      · subst ho1
        rw [hrel] at hdead
        by_cases hcc : c1 = 1
        · rw [upd_same]
          omega
        · rw [if_neg hcc] at hdead
          exact absurd hdead (by simp)
      · rw [rcRelease_ne st.heap _ o
          (fun he => ho1 (by injection he with he'; exact he'.symm))] at hdead
        rw [upd_other _ _ _ _ ho1]
        exact hn o hdead

/-- Move assignment: the moved reference changes hands, the old field of
the target is released, no other count changes. -/
theorem rcInvariant_assignMove (st : RCState) (d s : Nat)
    (hd : st.slots.get? d = some (some (slotVal st d)))
    (hs : st.slots.get? s = some (some (slotVal st s)))
    (hds : d ≠ s)
    (hinv : rcInvariant st) :
    rcInvariant (applyPOp st (POp.assignMove d s)) := by
  obtain ⟨hc, hn⟩ := hinv
  simp only [applyPOp]
  have hgetd : (st.slots.set s (some none)).get? d = some (some (slotVal st d)) := by
    rw [get?_set_of_ne st.slots s d (some none) (Ne.symm hds)]
    exact hd
  have howners : ∀ o : Nat,
      owners ((st.slots.set s (some none)).set d (some (slotVal st s))) o
          + (if slotVal st d = some o then 1 else 0)
        = owners st.slots o := by
    intro o
    have h1 := owners_set (st.slots.set s (some none)) d (some (slotVal st d)) hgetd
      (some (slotVal st s)) o
    have h2 := owners_set st.slots s (some (slotVal st s)) hs (some none) o
    by_cases e1 : slotVal st d = some o <;> by_cases e2 : slotVal st s = some o <;>
      simp [e1, e2] at h1 h2 ⊢ <;> omega
  have haux : ∀ o : Nat,
      (∀ c, rcRelease st.heap (slotVal st d) o = some c →
        c = owners ((st.slots.set s (some none)).set d (some (slotVal st s))) o
            + st.ext o)
      ∧ (rcRelease st.heap (slotVal st d) o = none →
        owners ((st.slots.set s (some none)).set d (some (slotVal st s))) o = 0
        ∧ st.ext o = 0) := by
    intro o
    have hown := howners o
    by_cases hoo : slotVal st d = some o
    · rw [hoo] at hd
      have hpos := owners_pos st.slots d o hd
      obtain ⟨c0, hh0⟩ : ∃ c0, st.heap o = some c0 := by
        cases hh : st.heap o with
        | none =>
          have := (hn o hh).1
          omega
        | some c0 => exact ⟨c0, rfl⟩
      have hco := hc o c0 hh0
      have hrel := rcRelease_live st.heap o c0 hh0
      rw [hoo, hrel]
      rw [if_pos hoo] at hown
      constructor
      · intro c hcr
        by_cases hc1 : c0 = 1
        · rw [if_pos hc1] at hcr
          exact absurd hcr (by simp)
        · rw [if_neg hc1] at hcr
          simp only [Option.some.injEq] at hcr
          omega
      · intro hdead
        by_cases hc1 : c0 = 1
        · omega
        · rw [if_neg hc1] at hdead
          exact absurd hdead (by simp)
    · have hval : rcRelease st.heap (slotVal st d) o = st.heap o :=
        rcRelease_ne _ _ _ hoo
      rw [hval]
      rw [if_neg hoo] at hown
      constructor
      · intro c hcr
        have := hc o c hcr
        omega
      · intro hdead
        have := hn o hdead
        omega
  exact ⟨fun o c hco => (haux o).1 c hco, fun o hdead => (haux o).2 hdead⟩

/-- Preservation of the handle invariant by every well-formed operation. -/
theorem rcInvariant_step (st : RCState) (op : POp)
    (hinv : rcInvariant st) (hwf : wfPOp st op) :
    rcInvariant (applyPOp st op) := by
  cases op with
  | newObj o0 =>
    obtain ⟨hc, hn⟩ := hinv
    have hdead := hn o0 hwf
    constructor
    · intro o c hco
      dsimp only [applyPOp] at hco ⊢
      by_cases ho : o = o0
      · subst ho
        rw [upd_same] at hco
        simp only [Option.some.injEq] at hco
        omega
      · rw [upd_other _ _ _ _ ho] at hco
        exact hc o c hco
    · intro o hdo
      dsimp only [applyPOp] at hdo ⊢
      by_cases ho : o = o0
      · subst ho
        rw [upd_same] at hdo
        exact absurd hdo (by simp)
      · rw [upd_other _ _ _ _ ho] at hdo
        exact hn o hdo
  | mkFromRaw src => exact rcInvariant_acquire_append st src hwf hinv
  | copyCtor s =>
    refine rcInvariant_acquire_append st (slotVal st s) ?_ hinv
    intro o hfo
    have hwf' : st.slots.get? s = some (some (slotVal st s)) := hwf
    rw [hfo] at hwf'
    obtain ⟨c, hh, -, -⟩ := live_of_owner hinv hwf'
    rw [hh]
    simp
  | moveCtor s => exact rcInvariant_move_append st s hwf hinv
  | assignRaw d src =>
    exact rcInvariant_acquire_release_set st d src hwf.1 hwf.2 hinv
  | assignCopy d s =>
    refine rcInvariant_acquire_release_set st d (slotVal st s) hwf.1 ?_ hinv
    intro o hfo
    have hwf' : st.slots.get? s = some (some (slotVal st s)) := hwf.2
    rw [hfo] at hwf'
    obtain ⟨c, hh, -, -⟩ := live_of_owner hinv hwf'
    rw [hh]
    simp
  | assignMove d s => exact rcInvariant_assignMove st d s hwf.1 hwf.2.1 hwf.2.2 hinv
  | usurp d src => exact rcInvariant_usurp st d src hwf.1 hwf.2 hinv
  | leak s => exact rcInvariant_leak st s hwf hinv
  | dtor s => exact rcInvariant_dtor st s hwf hinv
  | rawAcquire p => exact rcInvariant_rawAcquire st p hwf hinv
  | rawRelease p => exact rcInvariant_rawRelease st p hwf hinv

/-- C10: reference counting handle invariant.  Every well-formed Pointer
or raw operation keeps the count of every live object equal to its
owning handles plus outstanding explicit acquires; objects are created
with count 0; acquire and release on null are no-ops; release deletes
exactly when the count drops from 1; adopting a fresh object through a
Pointer yields count 1; leak, and usurp into an empty handle, transfer
ownership without changing any count. -/
theorem referenced_pointer_contract (st : RCState) (op : POp)
    (hinv : rcInvariant st) (hwf : wfPOp st op) :
    rcInvariant (applyPOp st op)
    ∧ (∀ heap : Nat → Option Nat, rcAcquire heap none = heap
        ∧ rcRelease heap none = heap)
    ∧ (∀ (st' : RCState) (o : Nat), (applyPOp st' (POp.newObj o)).heap o = some 0)
    ∧ (∀ (heap : Nat → Option Nat) (o c : Nat), heap o = some c →
        (rcRelease heap (some o) o = none ↔ c = 1))
    ∧ (∀ (st' : RCState) (o : Nat), st'.heap o = some 0 →
        (applyPOp st' (POp.mkFromRaw (some o))).heap o = some 1)
    ∧ (∀ (st' : RCState) (s : Nat), (applyPOp st' (POp.leak s)).heap = st'.heap)
    ∧ (∀ (st' : RCState) (d : Nat) (src : Option Nat), slotVal st' d = none →
        (applyPOp st' (POp.usurp d src)).heap = st'.heap) := by
  refine ⟨rcInvariant_step st op hinv hwf, fun heap => ⟨rfl, rfl⟩, ?_, ?_, ?_, ?_, ?_⟩
  · intro st' o
    dsimp only [applyPOp]
    exact upd_same _ _ _
  · intro heap o c h
    rw [rcRelease_live heap o c h]
    by_cases hc : c = 1 <;> simp [hc]
  · intro st' o h
    dsimp only [applyPOp]
    exact rcAcquire_live st'.heap o 0 h
  · intro st' s
    rfl
  · intro st' d src h
    dsimp only [applyPOp]
    rw [h]
    rfl

/-- Empty reference counting state. -/
def rcState0 : RCState := ⟨fun _ => none, [], fun _ => 0⟩

/-- Witness: the empty state satisfies the invariant, creating an object
is well formed there, and the contract applies. -/
theorem referenced_pointer_contract_witness :
    rcInvariant rcState0 ∧ wfPOp rcState0 (POp.newObj 0)
    ∧ rcInvariant (applyPOp rcState0 (POp.newObj 0)) := by
  have hinv : rcInvariant rcState0 :=
    ⟨fun o c hco => by simp [rcState0] at hco, fun o _ => ⟨rfl, rfl⟩⟩
  have hwf : wfPOp rcState0 (POp.newObj 0) := rfl
  exact ⟨hinv, hwf,
    (referenced_pointer_contract rcState0 (POp.newObj 0) hinv hwf).1⟩

end Rabid
